import Mathlib

/-!
Verification of the translation-orchestration core of `i18n-app-translator`.

The TypeScript sources are embedded shallowly:

* JavaScript `Map` objects and plain string-keyed objects are modelled as
  association lists `List (String × α)` with JS semantics: `set`/property
  assignment overwrites in place (keeping the key's position) or appends,
  and lookup returns the entry for the key if present.
* `async` functions that can throw are modelled in `Except String`;
  `try/catch`-and-continue blocks are modelled by matching on the
  `Except` value and substituting the documented fallback.
* The external AI / vector-database backends are oracles: structures of
  functions quantified over in the theorems.
-/

namespace I18nApp

/-- Lookup in a JS `Map` / object modelled as an association list. -/
def mapGet (m : List (String × α)) (k : String) : Option α :=
  (m.find? (fun p => p.1 == k)).map (·.2)

/-- `Map.set` / property assignment: overwrite in place if the key is
present (JS keeps the key's insertion position), otherwise append. -/
def mapSet (m : List (String × α)) (k : String) (v : α) : List (String × α) :=
  if m.any (fun p => p.1 == k) then
    m.map (fun p => if p.1 == k then (k, v) else p)
  else
    m ++ [(k, v)]

/-! ## Data model (src/utils/parser.ts, src/utils/glossary.ts) -/

/-- `I18nEntry` from `src/utils/parser.ts`.  Optional fields are `Option`;
`none` models an absent (`undefined`) property. -/
structure I18nEntry where
  key : String
  value : String
  context : Option String := none
  file : Option String := none
  line : Option Nat := none
deriving DecidableEq, Repr

/-- `ITranslationResult` from `src/utils/translator.ts`. -/
structure ITranslationResult where
  original : String
  translated : String
  isNew : Bool
  changes : Option String := none
deriving DecidableEq, Repr

/-- `IGlossaryEntry` from `src/utils/glossary.ts`.  The `translations`
record (a JS object, language code → string) is an association list. -/
structure IGlossaryEntry where
  term : String
  translations : List (String × String)
  context : Option String := none
  notes : Option String := none
deriving DecidableEq, Repr

/-! ## Glossary store (src/utils/glossary.ts) -/

/-- JS object spread `{...old, ...new}` for two string records: keys of
`old` keep their positions (values overwritten by `new` where present),
keys only in `new` are appended in `new`'s order. -/
def objMerge (old new_ : List (String × String)) : List (String × String) :=
  old.map (fun p => match mapGet new_ p.1 with
    | some v => (p.1, v)
    | none => p) ++
  new_.filter (fun p => !(old.any (fun q => q.1 == p.1)))

/-- The entry produced by `Glossary.addEntry` when a case-insensitive
match on `term` exists:
`{...existing, ...entry, translations: {...existing.translations, ...entry.translations}}`.
`term`/`translations` are always present on `entry` and overwrite; the
optional `context`/`notes` overwrite only when present on `entry`. -/
def mergeGlossaryEntry (old e : IGlossaryEntry) : IGlossaryEntry :=
  { term := e.term
    translations := objMerge old.translations e.translations
    context := match e.context with
      | some c => some c
      | none => old.context
    notes := match e.notes with
      | some n => some n
      | none => old.notes }

/-- `Glossary.addEntry` (glossary.ts lines 57–71): find the first entry
whose lowercased term matches, replace it in place with the merged entry;
otherwise append.  (`findIndex` + indexed assignment is rendered as
first-match recursion, which produces the same list.) -/
def addEntry : List IGlossaryEntry → IGlossaryEntry → List IGlossaryEntry
  | [], e => [e]
  | x :: rest, e =>
    if x.term.toLower == e.term.toLower then
      mergeGlossaryEntry x e :: rest
    else
      x :: addEntry rest e

/-- `Glossary.getEntriesForLanguage` (glossary.ts lines 92–102): project
the entries that have a translation for `language` to a term → string
record.  `if (entry.translations[language])` is a JS truthiness test, so
an empty-string translation is skipped as well. -/
def getEntriesForLanguage (entries : List IGlossaryEntry) (language : String) :
    List (String × String) :=
  entries.foldl (fun result e =>
    match mapGet e.translations language with
    | some t => if t == "" then result else mapSet result e.term t
    | none => result) []

/-! ## Vector-database clients (src/utils/vectorDBClient.ts) -/

/-- One stored similarity record (`sourceText`/`translation`/`language`/
`context` metadata, with the client-side `context || 'unknown'` default
applied). -/
structure SimRecord where
  sourceText : String
  translation : String
  language : String
  context : String
deriving DecidableEq, Repr

/-- Base64 alphabet (RFC 4648), used by `Buffer.from(s).toString('base64')`. -/
def base64Table : List Char :=
  "ABCDEFGHIJKLMNOPQRSTUVWXYZabcdefghijklmnopqrstuvwxyz0123456789+/".data

def base64Digit (i : UInt8) : Char := base64Table.getD i.toNat 'A'

/-- Base64-encode a byte list, standard 3-byte → 4-char blocks with
`=` padding. -/
def base64EncodeBytes : List UInt8 → List Char
  | [] => []
  | [b1] =>
    [base64Digit (b1 >>> 2), base64Digit ((b1 &&& 3) <<< 4), '=', '=']
  | [b1, b2] =>
    [base64Digit (b1 >>> 2), base64Digit (((b1 &&& 3) <<< 4) ||| (b2 >>> 4)),
     base64Digit ((b2 &&& 15) <<< 2), '=']
  | b1 :: b2 :: b3 :: rest =>
    base64Digit (b1 >>> 2) ::
    base64Digit (((b1 &&& 3) <<< 4) ||| (b2 >>> 4)) ::
    base64Digit (((b2 &&& 15) <<< 2) ||| (b3 >>> 6)) ::
    base64Digit (b3 &&& 63) ::
    base64EncodeBytes rest

/-- `Buffer.from(sourceText).toString('base64')`: base64 of the UTF-8
bytes. -/
def base64Encode (s : String) : String := ⟨base64EncodeBytes s.toUTF8.toList⟩

/-- The deterministic id both Pinecone and Chroma clients build:
``` `${language}_${Buffer.from(sourceText).toString('base64')}` ```. -/
def vectorRecordId (language sourceText : String) : String :=
  language ++ "_" ++ base64Encode sourceText

/-- `PineconeVectorDBClient.addTranslation`: upsert (insert-or-overwrite)
a record under the deterministic id.  The store models the Pinecone index
as id → record, with `upsert` given its documented insert-or-overwrite
semantics. -/
def pineconeAddTranslation (store : List (String × SimRecord))
    (sourceText translation language : String) (context : Option String) :
    List (String × SimRecord) :=
  mapSet store (vectorRecordId language sourceText)
    ⟨sourceText, translation, language, context.getD "unknown"⟩

/-- `WeaviateVectorDBClient.addTranslation`: `client.data.creator()`
creates a brand-new object (Weaviate auto-generates a fresh UUID); no
deterministic id is supplied, so every call appends a record. -/
def weaviateAddTranslation (store : List SimRecord)
    (sourceText translation language : String) (context : Option String) :
    List SimRecord :=
  store ++ [⟨sourceText, translation, language, context.getD "unknown"⟩]

/-- Records stored for a given (language, sourceText) pair. -/
def recordsFor (records : List SimRecord) (language sourceText : String) :
    List SimRecord :=
  records.filter (fun r => r.language == language && r.sourceText == sourceText)

/-! ## Catalog model (src/utils/parser.ts)

`I18nData` is `{[key]: string | I18nData}`: a JS object whose values are
strings or nested objects.  A JS object with its insertion order is an
association list, so a catalog is a `List (String × JValue)`. -/

inductive JValue where
  | str : String → JValue
  | obj : List (String × JValue) → JValue
deriving Repr

abbrev I18nData := List (String × JValue)

/-- The template literal ``prefix ? `${prefix}.${key}` : key`` from
`Parser.flattenI18nData` (empty string is falsy). -/
def fullKey (pref k : String) : String :=
  if pref = "" then k else pref ++ "." ++ k

/-- `Parser.flattenI18nData` (parser.ts lines 153–172): depth-first
traversal pushing `{key, value}` entries onto the accumulator. -/
def flattenI18nData : I18nData → String → List I18nEntry → List I18nEntry
  | [], _, entries => entries
  | (k, .str v) :: rest, pref, entries =>
    flattenI18nData rest pref (entries ++ [{ key := fullKey pref k, value := v }])
  | (k, .obj fields) :: rest, pref, entries =>
    flattenI18nData rest pref (flattenI18nData fields (fullKey pref k) entries)
termination_by d _ _ => sizeOf d
decreasing_by all_goals (simp_wf; try omega)

/-- JS property read `fields[k]` on an object. -/
def getField (fields : I18nData) (k : String) : Option JValue :=
  mapGet fields k

/-- JS property assignment `fields[k] = v` on an object: overwrite in
place, or append a new key. -/
def setField (fields : I18nData) (k : String) (v : JValue) : I18nData :=
  mapSet fields k v

/-- The per-entry body of `Parser.buildI18nData` (parser.ts lines
291–305): walk `parts`, materialising `{}` for a missing or falsy
(`!current[part]`, i.e. absent or `""`) intermediate, then assign the
leaf.  A non-empty *string* intermediate is kept by the falsy test, after
which the walk assigns a property on a string primitive — a `TypeError`
under strict mode (this package is ESM) — modelled as `none`.
The `[]` path never occurs (`String.split` never returns `[]`). -/
def insertParts : I18nData → List String → String → Option I18nData
  | _, [], _ => none
  | fields, [last], v => some (setField fields last (.str v))
  | fields, p :: q :: rest, v =>
    match getField fields p with
    | some (.obj sub) =>
      (insertParts sub (q :: rest) v).map (fun sub' => setField fields p (.obj sub'))
    | some (.str s) =>
      if s = "" then
        (insertParts [] (q :: rest) v).map (fun sub' => setField fields p (.obj sub'))
      else none
    | none =>
      (insertParts [] (q :: rest) v).map (fun sub' => setField fields p (.obj sub'))

/-- `Parser.buildI18nData` (parser.ts lines 288–308): fold the entries,
splitting each key on `"."`. -/
def buildI18nData (entries : List I18nEntry) : Option I18nData :=
  entries.foldlM (fun data e => insertParts data (e.key.splitOn ".") e.value) []

/-- Result of `Parser.compareI18nFiles`. -/
structure CompareResult where
  missing : List I18nEntry
  outdated : List (I18nEntry × I18nEntry)
deriving DecidableEq, Repr

/-- The target-entry lookup `Map` built by `compareI18nFiles`,
`review`, and `translate` (`forEach` + `set`, so a later duplicate key
wins). -/
def targetMapOf (targetEntries : List I18nEntry) : List (String × I18nEntry) :=
  targetEntries.foldl (fun m e => mapSet m e.key e) []

/-- `Parser.compareI18nFiles` (parser.ts lines 253–283): each source
entry with no target entry is `missing`; one whose value differs from
the target entry's value is `outdated`. -/
def compareI18nFiles (sourceEntries targetEntries : List I18nEntry) : CompareResult :=
  let targetMap := targetMapOf targetEntries
  sourceEntries.foldl (fun acc s =>
    match mapGet targetMap s.key with
    | none => { acc with missing := acc.missing ++ [s] }
    | some t =>
      if s.value ≠ t.value then
        { acc with outdated := acc.outdated ++ [(s, t)] }
      else acc)
    ⟨[], []⟩

/-- A key is round-trip safe when it is non-empty and contains no `'.'`
(the flatten separator / build split character). -/
def goodKey (k : String) : Prop := k ≠ "" ∧ ∀ ch ∈ k.data, ch ≠ '.'

instance (k : String) : Decidable (goodKey k) := by
  unfold goodKey
  infer_instance

mutual
/-- Well-formed catalog value: a nested object is non-empty, has
pairwise-distinct keys and well-formed children. -/
def wfVal : JValue → Prop
  | .str _ => True
  | .obj fields =>
    fields ≠ [] ∧ (fields.map Prod.fst).Nodup ∧ wfFields fields

/-- All keys of a field list are good and all values well-formed. -/
def wfFields : List (String × JValue) → Prop
  | [] => True
  | (k, v) :: rest => goodKey k ∧ wfVal v ∧ wfFields rest
end

/-- Well-formed catalog: distinct good keys at every level, no empty
nested object. -/
def wfData (d : I18nData) : Prop := (d.map Prod.fst).Nodup ∧ wfFields d

/-- The (path, value) pairs of the string leaves of a catalog, in
traversal order — the path-level counterpart of `flattenI18nData` used to
state the round-trip proof. -/
def flatPaths : List (String × JValue) → List String → List (List String × String)
  | [], _ => []
  | (k, .str v) :: rest, pref => (pref ++ [k], v) :: flatPaths rest pref
  | (k, .obj fields) :: rest, pref =>
    flatPaths fields (pref ++ [k]) ++ flatPaths rest pref
termination_by d _ => sizeOf d
decreasing_by all_goals (simp_wf; try omega)

/-! ## Pipeline drivers (src/commands/review.ts, src/commands/translate.ts) -/

/-- The entry-selection step of the `review` driver (review.ts lines
54–61): with `all` every source entry whose key exists in the target is
selected; otherwise the sources of the `outdated` pairs. -/
def reviewSelection (sourceEntries targetEntries : List I18nEntry) (all : Bool) :
    List I18nEntry :=
  let od := (compareI18nFiles sourceEntries targetEntries).outdated
  if all then
    sourceEntries.filter (fun s => targetEntries.any (fun t => t.key == s.key))
  else
    od.map (·.1)

/-- The merge step of the `translate` driver (translate.ts lines
112–128): start from the pre-existing target entries and append, for
each source key absent from the target, the translated entry if
`batchTranslate` produced a result for it. -/
def mergeTranslations (sourceEntries targetEntries : List I18nEntry)
    (translationResults : List (String × ITranslationResult)) : List I18nEntry :=
  let targetMap := targetMapOf targetEntries
  targetEntries ++ sourceEntries.filterMap (fun s =>
    match mapGet targetMap s.key with
    | some _ => none
    | none =>
      match mapGet translationResults s.key with
      | some r => some { key := s.key, value := r.translated, context := s.context }
      | none => none)

/-! ## Translation orchestrator (src/utils/translator.ts)

The generation backend (`aiClient.ts`) and the vector-database client are
external collaborators; they appear as oracles in `TranslatorDeps`.
`Except String` models a promise that can reject. -/

/-- One `{source, translation, similarity}` result of
`findSimilarTranslations`.  The JS similarity number is carried opaquely
(no arithmetic is performed on it); it is modelled as `Rat`. -/
structure SimilarTranslation where
  source : String
  translation : String
  similarity : Rat
deriving DecidableEq, Repr

/-- `ITranslationOptions` from translator.ts; `none` = property absent,
so the destructuring defaults apply. -/
structure ITranslationOptions where
  useVectorDB : Option Bool := none
  useGlossary : Option Bool := none
  similarTranslationsLimit : Option Nat := none
  context : Option String := none
  concurrency : Option Nat := none
  showProgress : Option Bool := none

/-- The external calls a `Translator` makes, as oracles:
`findSimilarTranslations` of the vector-DB client, the glossary
projection, and `generateTranslation` / `reviewTranslation` of
`aiClient.ts` (the latter returning `{improved, changes}`). -/
structure TranslatorDeps where
  findSimilarTranslations :
    String → String → Nat → Except String (List SimilarTranslation)
  glossaryEntriesForLanguage :
    String → Except String (List (String × String))
  generateTranslation :
    String → String → Option String → Option (List SimilarTranslation) →
      Option (List (String × String)) → Except String String
  reviewTranslation :
    String → String → String → Option String →
      Option (List (String × String)) → Except String (String × String)

/-- An `addTranslation(sourceText, translation, language, context)` call
issued to the vector-DB client.  Failures of these calls are caught and
logged by the translator, so only the attempted arguments are observable. -/
structure SimWrite where
  sourceText : String
  translation : String
  language : String
  context : Option String
deriving DecidableEq, Repr

/-- The `similarTranslations` argument `translateEntry` passes to
generation: `undefined` (`none`) when the vector DB is disabled or
absent; the lookup result with a caught failure degrading to `[]`
otherwise. -/
def similarArg (deps : TranslatorDeps) (hasVectorDB : Bool) (entry : I18nEntry)
    (targetLanguage : String) (options : ITranslationOptions) :
    Option (List SimilarTranslation) :=
  if options.useVectorDB.getD true && hasVectorDB then
    some (match deps.findSimilarTranslations entry.value targetLanguage
            (options.similarTranslationsLimit.getD 3) with
      | .ok l => l
      | .error _ => [])
  else none

/-- The `glossaryTerms` argument: `undefined` when the glossary is
disabled or absent; the projection with a caught failure degrading to
`{}` otherwise. -/
def glossaryArg (deps : TranslatorDeps) (hasGlossary : Bool)
    (targetLanguage : String) (options : ITranslationOptions) :
    Option (List (String × String)) :=
  if options.useGlossary.getD true && hasGlossary then
    some (match deps.glossaryEntriesForLanguage targetLanguage with
      | .ok g => g
      | .error _ => [])
  else none

/-- The effective context of `translateEntry`:
`const { context = entry.context } = options`. -/
def translateCtx (entry : I18nEntry) (options : ITranslationOptions) : Option String :=
  match options.context with
  | some c => some c
  | none => entry.context

/-- `Translator.translateEntry` (translator.ts lines 35–109).  Returns
the result together with the `addTranslation` calls attempted (step 4 is
fire-and-forget: its failure is caught and logged, so it influences
neither the result nor the error behaviour).  The only uncaught failure
is `generateTranslation`'s. -/
def translateEntry (deps : TranslatorDeps) (hasVectorDB hasGlossary : Bool)
    (entry : I18nEntry) (targetLanguage : String) (options : ITranslationOptions) :
    Except String (ITranslationResult × List SimWrite) :=
  let ctx := translateCtx entry options
  match deps.generateTranslation entry.value targetLanguage ctx
      (similarArg deps hasVectorDB entry targetLanguage options)
      (glossaryArg deps hasGlossary targetLanguage options) with
  | .error e => .error e
  | .ok translatedText =>
    let writes :=
      if options.useVectorDB.getD true && hasVectorDB then
        [{ sourceText := entry.value, translation := translatedText,
           language := targetLanguage, context := ctx }]
      else []
    .ok ({ original := entry.value, translated := translatedText, isNew := true },
      writes)

/-- JS `a || b` on two optional strings (an empty string is falsy). -/
def jsOrStr : Option String → Option String → Option String
  | some s, b => if s = "" then b else some s
  | none, b => b

/-- The effective context of `reviewEntry`:
`const { context = sourceEntry.context || targetEntry.context } = options`. -/
def reviewCtx (sourceEntry targetEntry : I18nEntry) (options : ITranslationOptions) :
    Option String :=
  match options.context with
  | some c => some c
  | none => jsOrStr sourceEntry.context targetEntry.context

/-- `Translator.reviewEntry` (translator.ts lines 114–169).  The index
write happens iff the improved text differs from the existing target
value *and* a vector-DB client is present; its failure is caught and
logged (invisible beyond the attempted call).  The only uncaught failure
is `reviewTranslation`'s. -/
def reviewEntry (deps : TranslatorDeps) (hasVectorDB hasGlossary : Bool)
    (sourceEntry targetEntry : I18nEntry) (targetLanguage : String)
    (options : ITranslationOptions) :
    Except String (ITranslationResult × List SimWrite) :=
  let ctx := reviewCtx sourceEntry targetEntry options
  match deps.reviewTranslation sourceEntry.value targetEntry.value targetLanguage
      ctx (glossaryArg deps hasGlossary targetLanguage options) with
  | .error e => .error e
  | .ok (improved, changes) =>
    let writes :=
      if improved ≠ targetEntry.value && hasVectorDB then
        [{ sourceText := sourceEntry.value, translation := improved,
           language := targetLanguage, context := ctx }]
      else []
    .ok ({ original := sourceEntry.value, translated := improved, isNew := false,
           changes := some changes },
      writes)

/-- The `for (let i = 0; i < total; i += concurrency)` window loop of
`batchTranslate` / `batchReview`, fuel-indexed (the TS loop has no other
exit: every exception inside a window is caught).  `none` means the loop
did not finish within `fuel` iterations — in particular, with
`concurrency = 0` the index never advances and no fuel suffices. -/
def windowLoop (step : List α → β → β) (entries : List α) (concurrency : Nat) :
    Nat → Nat → β → Option β
  | 0, i, acc => if i < entries.length then none else some acc
  | fuel + 1, i, acc =>
    if i < entries.length then
      windowLoop step entries concurrency fuel (i + concurrency)
        (step ((entries.drop i).take concurrency) acc)
    else some acc

/-- One `batchTranslate` window (translator.ts lines 204–228): each entry
is translated inside `try`/`catch`; successes are `set` into the result
map, failures are logged and skipped. -/
def translateWindowStep (deps : TranslatorDeps) (hasVectorDB hasGlossary : Bool)
    (targetLanguage : String) (options : ITranslationOptions)
    (batch : List I18nEntry) (results : List (String × ITranslationResult)) :
    List (String × ITranslationResult) :=
  batch.foldl (fun m e =>
    match translateEntry deps hasVectorDB hasGlossary e targetLanguage options with
    | .ok (r, _) => mapSet m e.key r
    | .error _ => m) results

/-- `Translator.batchTranslate` (translator.ts lines 174–242) as the
fuel-indexed window loop with
`const { concurrency = 5 } = options`. -/
def batchTranslateF (deps : TranslatorDeps) (hasVectorDB hasGlossary : Bool)
    (entries : List I18nEntry) (targetLanguage : String)
    (options : ITranslationOptions) (fuel : Nat) :
    Option (List (String × ITranslationResult)) :=
  windowLoop (translateWindowStep deps hasVectorDB hasGlossary targetLanguage options)
    entries (options.concurrency.getD 5) fuel 0 []

/-- `batchTranslate` with fuel `entries.length`, which suffices whenever
the effective concurrency is ≥ 1 (the window count is
⌈total/concurrency⌉ ≤ total). -/
def batchTranslate (deps : TranslatorDeps) (hasVectorDB hasGlossary : Bool)
    (entries : List I18nEntry) (targetLanguage : String)
    (options : ITranslationOptions) :
    Option (List (String × ITranslationResult)) :=
  batchTranslateF deps hasVectorDB hasGlossary entries targetLanguage options
    entries.length

/-- One `batchReview` window (translator.ts lines 287–320). -/
def reviewWindowStep (deps : TranslatorDeps) (hasVectorDB hasGlossary : Bool)
    (targetMap : List (String × I18nEntry)) (targetLanguage : String)
    (options : ITranslationOptions)
    (batch : List I18nEntry) (results : List (String × ITranslationResult)) :
    List (String × ITranslationResult) :=
  batch.foldl (fun m s =>
    match mapGet targetMap s.key with
    | some t =>
      match reviewEntry deps hasVectorDB hasGlossary s t targetLanguage options with
      | .ok (r, _) => mapSet m s.key r
      | .error _ => m
    | none => m) results

/-- `Translator.batchReview` (translator.ts lines 247–332): restrict to
source entries whose key exists in the target map, then run the window
loop. -/
def batchReviewF (deps : TranslatorDeps) (hasVectorDB hasGlossary : Bool)
    (sourceEntries targetEntries : List I18nEntry) (targetLanguage : String)
    (options : ITranslationOptions) (fuel : Nat) :
    Option (List (String × ITranslationResult)) :=
  let targetMap := targetMapOf targetEntries
  let entriesToReview :=
    sourceEntries.filter (fun e => (mapGet targetMap e.key).isSome)
  windowLoop
    (reviewWindowStep deps hasVectorDB hasGlossary targetMap targetLanguage options)
    entriesToReview (options.concurrency.getD 5) fuel 0 []

/-- The list of windows `entries.slice(i, i + c)` the batch loop visits
(a proof-side description of what the loop computes; empty when `c = 0`,
where the real loop never terminates). -/
def chunksOf : Nat → List α → List (List α)
  | _, [] => []
  | 0, _ :: _ => []
  | c + 1, x :: xs => ((x :: xs).take (c + 1)) :: chunksOf (c + 1) ((x :: xs).drop (c + 1))
termination_by _ l => l.length
decreasing_by simp_wf; omega

/-- `Math.ceil(total / concurrency)` — the number of windows the batch
loop runs for a list of `n` entries at concurrency `c ≥ 1`. -/
def numWindows (c n : Nat) : Nat := (n + c - 1) / c

/-- A concrete oracle for witnesses: generation fails exactly on the
source text "fail". -/
def depsFix : TranslatorDeps where
  findSimilarTranslations := fun _ _ _ => .ok []
  glossaryEntriesForLanguage := fun _ => .ok []
  generateTranslation := fun v _ _ _ _ =>
    if v == "fail" then .error "generation failed" else .ok ("T:" ++ v)
  reviewTranslation := fun _ t _ _ _ => .ok (t, "No changes needed")

/-- Concrete entries for witnesses: the middle one fails generation. -/
def entriesFix : List I18nEntry :=
  [{ key := "k1", value := "a" }, { key := "k2", value := "fail" },
   { key := "k3", value := "c" }]

/-! ## Association-list lemmas -/

@[simp] theorem mapGet_nil (k : String) : mapGet ([] : List (String × α)) k = none := rfl

theorem mapGet_cons (p : String × α) (m : List (String × α)) (k : String) :
    mapGet (p :: m) k = if p.1 == k then some p.2 else mapGet m k := by
  by_cases h : p.1 == k <;> simp [mapGet, List.find?, h]

theorem mapGet_append_right (m₁ m₂ : List (String × α)) (k : String)
    (h : mapGet m₁ k = none) : mapGet (m₁ ++ m₂) k = mapGet m₂ k := by
  induction m₁ with
  | nil => simp
  | cons p m ih =>
    rw [mapGet_cons] at h
    by_cases hp : p.1 == k
    · simp [hp] at h
    · rw [List.cons_append, mapGet_cons, if_neg hp]
      exact ih (by simpa [hp] using h)

theorem mapGet_append_left (m₁ m₂ : List (String × α)) (k : String) (v : α)
    (h : mapGet m₁ k = some v) : mapGet (m₁ ++ m₂) k = some v := by
  induction m₁ with
  | nil => simp at h
  | cons p m ih =>
    rw [mapGet_cons] at h
    by_cases hp : p.1 == k
    · rw [List.cons_append, mapGet_cons, if_pos hp]
      simpa [hp] using h
    · rw [List.cons_append, mapGet_cons, if_neg hp]
      exact ih (by simpa [hp] using h)

theorem mapGet_eq_none_iff (m : List (String × α)) (k : String) :
    mapGet m k = none ↔ ∀ p ∈ m, p.1 ≠ k := by
  induction m with
  | nil => simp
  | cons p m ih =>
    rw [mapGet_cons]
    by_cases hp : p.1 == k
    · rw [beq_iff_eq] at hp
      simp [hp]
    · rw [beq_iff_eq] at hp
      rw [if_neg (by simpa using hp), ih]
      constructor
      · intro h
        intro q hq
        rcases List.mem_cons.1 hq with rfl | hq'
        · exact hp
        · exact h q hq'
      · intro h q hq
        exact h q (List.mem_cons_of_mem _ hq)

theorem mapGet_isSome_iff (m : List (String × α)) (k : String) :
    (mapGet m k).isSome = true ↔ ∃ p ∈ m, p.1 = k := by
  rw [Option.isSome_iff_ne_none, Ne, mapGet_eq_none_iff]
  push_neg
  simp

/-- If the key is absent, `mapSet` appends. -/
theorem mapSet_of_not_mem (m : List (String × α)) (k : String) (v : α)
    (h : mapGet m k = none) : mapSet m k v = m ++ [(k, v)] := by
  rw [mapGet_eq_none_iff] at h
  have hany : m.any (fun p => p.1 == k) = false := by
    simp only [List.any_eq_false, beq_iff_eq]
    exact fun p hp => h p hp
  simp [mapSet, hany]

theorem mapGet_mapSet_self (m : List (String × α)) (k : String) (v : α) :
    mapGet (mapSet m k v) k = some v := by
  unfold mapSet
  by_cases h : m.any (fun p => p.1 == k)
  · rw [if_pos h]
    simp only [List.any_eq_true, beq_iff_eq] at h
    induction m with
    | nil => simp at h
    | cons q m ih =>
      by_cases hq : q.1 = k
      · rw [List.map_cons, if_pos (by simpa using hq), mapGet_cons]
        simp
      · rw [List.map_cons, if_neg (by simpa using hq), mapGet_cons,
          if_neg (by simpa using hq)]
        rcases h with ⟨p, hp, hpk⟩
        rcases List.mem_cons.1 hp with rfl | hp'
        · exact absurd hpk hq
        · exact ih ⟨p, hp', hpk⟩
  · rw [if_neg h]
    simp only [List.any_eq_true, beq_iff_eq, not_exists, not_and] at h
    rw [mapGet_append_right _ _ _ (by rw [mapGet_eq_none_iff]; exact fun p hp => h p hp)]
    simp [mapGet_cons]

theorem mapGet_map_overwrite_ne (m : List (String × α)) (k k' : String) (v : α)
    (h : k ≠ k') :
    mapGet (m.map (fun p => if p.1 == k then (k, v) else p)) k' = mapGet m k' := by
  induction m with
  | nil => simp
  | cons q m ih =>
    by_cases hq : q.1 == k
    · have hqk : q.1 = k := by simpa using hq
      simp only [beq_iff_eq] at ih
      simp [List.map_cons, mapGet_cons, hqk, h, ih]
    · simp only [List.map_cons, if_neg hq]
      rw [mapGet_cons, mapGet_cons]
      by_cases hq' : q.1 == k'
      · rw [if_pos hq', if_pos hq']
      · rw [if_neg hq', if_neg hq', ih]

theorem mapGet_mapSet_ne (m : List (String × α)) (k k' : String) (v : α)
    (h : k ≠ k') : mapGet (mapSet m k v) k' = mapGet m k' := by
  unfold mapSet
  by_cases hm : m.any (fun p => p.1 == k)
  · rw [if_pos hm]
    exact mapGet_map_overwrite_ne m k k' v h
  · rw [if_neg hm]
    by_cases hm' : mapGet m k' = none
    · rw [mapGet_append_right _ _ _ hm', hm', mapGet_cons]
      simp [show ¬ (k == k') by simpa using h]
    · obtain ⟨v', hv'⟩ := Option.ne_none_iff_exists'.1 hm'
      rw [mapGet_append_left _ _ _ _ hv', hv']

/-- Number of entries of a `mapSet` result: unchanged if the key was
present, one more if it was absent. -/
theorem length_mapSet (m : List (String × α)) (k : String) (v : α) :
    (mapSet m k v).length =
      if (mapGet m k).isSome then m.length else m.length + 1 := by
  unfold mapSet
  by_cases h : m.any (fun p => p.1 == k)
  · have hs : (mapGet m k).isSome = true := by
      rw [mapGet_isSome_iff]
      simpa [beq_iff_eq] using h
    simp [h, hs]
  · have hs : (mapGet m k).isSome = false := by
      rw [Bool.eq_false_iff, Ne, mapGet_isSome_iff]
      simpa [beq_iff_eq] using h
    simp [h, hs]
/-! ## Glossary lemmas -/

/-- Keys of an association list are pairwise distinct (always true of a
JS object). -/
def keysNodup (l : List (String × α)) : Prop := (l.map Prod.fst).Nodup

theorem mapGet_of_keysNodup_mem (l : List (String × α)) (k : String) (v : α)
    (hnd : keysNodup l) (hm : (k, v) ∈ l) : mapGet l k = some v := by
  induction l with
  | nil => simp at hm
  | cons q l ih =>
    rw [keysNodup, List.map_cons, List.nodup_cons] at hnd
    rw [mapGet_cons]
    rcases List.mem_cons.1 hm with rfl | hm'
    · simp
    · have hq : q.1 ≠ k := by
        intro hqk
        exact hnd.1 (hqk ▸ (List.mem_map.2 ⟨(k, v), hm', rfl⟩))
      rw [if_neg (by simpa using hq)]
      exact ih hnd.2 hm'

theorem objMerge_map_overwrite (A B : List (String × String)) (hB : keysNodup B) :
    (objMerge A B).map (fun p => match mapGet B p.1 with
      | some v => (p.1, v)
      | none => p) = objMerge A B := by
  have hfix : ∀ p ∈ objMerge A B,
      (match mapGet B p.1 with
        | some v => (p.1, v)
        | none => p) = p := by
    intro p hp
    rcases List.mem_append.1 hp with hpA | hpB
    · rcases List.mem_map.1 hpA with ⟨a, _, rfl⟩
      cases h : mapGet B a.1 <;> simp [h]
    · have hpB' := List.mem_of_mem_filter hpB
      rw [mapGet_of_keysNodup_mem B p.1 p.2 hB hpB']
  calc (objMerge A B).map _
      = (objMerge A B).map id := List.map_congr_left hfix
    _ = objMerge A B := List.map_id _

theorem objMerge_filter_nil (A B : List (String × String)) :
    B.filter (fun p => !((objMerge A B).any (fun q => q.1 == p.1))) = [] := by
  rw [List.filter_eq_nil_iff]
  intro p hp
  simp only [Bool.not_eq_true', Bool.not_eq_false]
  rw [List.any_eq_true]
  by_cases hA : A.any (fun q => q.1 == p.1)
  · rcases List.any_eq_true.1 hA with ⟨a, ha, hak⟩
    refine ⟨(match mapGet B a.1 with
      | some v => (a.1, v)
      | none => a), List.mem_append_left _ (List.mem_map.2 ⟨a, ha, rfl⟩), ?_⟩
    cases h : mapGet B a.1 <;> simpa [h] using hak
  · refine ⟨p, List.mem_append_right _
      (List.mem_filter.2 ⟨hp, ?_⟩), by simp⟩
    simp only [Bool.not_eq_true']
    exact eq_false_of_ne_true hA

/-- Merging the same record twice is the same as merging it once. -/
theorem objMerge_idem (A B : List (String × String)) (hB : keysNodup B) :
    objMerge (objMerge A B) B = objMerge A B := by
  conv_lhs => rw [objMerge]
  rw [objMerge_filter_nil, List.append_nil, objMerge_map_overwrite A B hB]

theorem objMerge_self (B : List (String × String)) (hB : keysNodup B) :
    objMerge B B = B := by
  have h1 : B.map (fun p => match mapGet B p.1 with
      | some v => (p.1, v)
      | none => p) = B := by
    have hfix : ∀ p ∈ B,
        (match mapGet B p.1 with
          | some v => (p.1, v)
          | none => p) = p := by
      intro p hp
      rw [mapGet_of_keysNodup_mem B p.1 p.2 hB hp]
    calc B.map _ = B.map id := List.map_congr_left hfix
      _ = B := List.map_id _
  have h2 : B.filter (fun p => !(B.any (fun q => q.1 == p.1))) = [] := by
    rw [List.filter_eq_nil_iff]
    intro p hp
    simp only [Bool.not_eq_true', Bool.not_eq_false]
    exact List.any_eq_true.2 ⟨p, hp, by simp⟩
  rw [objMerge, h1, h2, List.append_nil]

theorem mergeGlossaryEntry_idem (x e : IGlossaryEntry)
    (he : keysNodup e.translations) :
    mergeGlossaryEntry (mergeGlossaryEntry x e) e = mergeGlossaryEntry x e := by
  unfold mergeGlossaryEntry
  simp only [IGlossaryEntry.mk.injEq]
  refine ⟨trivial, objMerge_idem _ _ he, ?_, ?_⟩
  · cases e.context <;> simp
  · cases e.notes <;> simp

theorem mergeGlossaryEntry_self (e : IGlossaryEntry)
    (he : keysNodup e.translations) : mergeGlossaryEntry e e = e := by
  unfold mergeGlossaryEntry
  cases e with
  | mk term translations context notes =>
    simp only [IGlossaryEntry.mk.injEq]
    refine ⟨trivial, objMerge_self _ he, ?_, ?_⟩
    · cases context <;> simp
    · cases notes <;> simp

/-- C9: applying the same glossary entry twice yields the same entry
list as applying it once — the second application finds the
(case-insensitively) matching term it created and merges into it without
changing anything, so no duplicate term is created and the merged
translations map is stable.  The hypothesis that the entry's
`translations` record has distinct keys is automatic for a JS object. -/
theorem glossary_addEntry_idempotent (g : List IGlossaryEntry) (e : IGlossaryEntry)
    (he : keysNodup e.translations) :
    addEntry (addEntry g e) e = addEntry g e := by
  induction g with
  | nil =>
    simp only [addEntry, beq_self_eq_true, if_pos]
    rw [mergeGlossaryEntry_self e he]
  | cons x rest ih =>
    by_cases hx : x.term.toLower == e.term.toLower
    · simp only [addEntry, hx, if_pos]
      have : (mergeGlossaryEntry x e).term.toLower == e.term.toLower := by
        simp [mergeGlossaryEntry]
      simp only [addEntry, this, if_pos]
      rw [mergeGlossaryEntry_idem x e he]
    · simp only [addEntry, hx]
      simp only [Bool.false_eq_true, if_false, addEntry, hx, ih]

/-- C9 witness. -/
theorem glossary_addEntry_idempotent_witness :
    keysNodup ([("ja", "ウォレット")] : List (String × String)) ∧
      addEntry (addEntry [⟨"Wallet", [("en", "wallet")], none, none⟩]
          ⟨"wallet", [("ja", "ウォレット")], none, none⟩)
          ⟨"wallet", [("ja", "ウォレット")], none, none⟩ =
        addEntry [⟨"Wallet", [("en", "wallet")], none, none⟩]
          ⟨"wallet", [("ja", "ウォレット")], none, none⟩ :=
  ⟨by simp [keysNodup],
   glossary_addEntry_idempotent _ _ (by simp [keysNodup])⟩

/-! ## Similarity-index key stability (C5) -/

/-- C5, counterexample: the Weaviate client's `addTranslation` does not
derive any id from `(language, sourceText)` — `data.creator()` stores a
fresh object per call — so adding ("Hello", "こんにちは", "ja") twice
leaves two stored records for ("ja", "Hello"), not one. -/
theorem weaviate_addTranslation_duplicates :
    (recordsFor
      (weaviateAddTranslation
        (weaviateAddTranslation [] "Hello" "こんにちは" "ja" none)
        "Hello" "こんにちは" "ja" none)
      "ja" "Hello").length = 2 ∧
    (recordsFor
      (weaviateAddTranslation
        (weaviateAddTranslation [] "Hello" "こんにちは" "ja" none)
        "Hello" "こんにちは" "ja" none)
      "ja" "Hello").length ≠ 1 := by
  constructor
  · rfl
  · decide

/-- C5 amended: the *Pinecone* client keys records by the deterministic
id `language ++ "_" ++ base64(sourceText)` and upserts, so a second
`addTranslation` for the same (sourceText, language) pair overwrites the
first record instead of adding one: the store size is unchanged by the
second call and the id maps to the second record.  (The Weaviate client
duplicates instead — see the counterexample — and the Chroma client
builds the same deterministic id but passes it to `add`, not an
upsert.) -/
theorem pinecone_addTranslation_overwrites (store : List (String × SimRecord))
    (sourceText tr₁ tr₂ language : String) (ctx₁ ctx₂ : Option String) :
    mapGet (pineconeAddTranslation
        (pineconeAddTranslation store sourceText tr₁ language ctx₁)
        sourceText tr₂ language ctx₂)
      (vectorRecordId language sourceText) =
      some ⟨sourceText, tr₂, language, ctx₂.getD "unknown"⟩ ∧
    (pineconeAddTranslation
        (pineconeAddTranslation store sourceText tr₁ language ctx₁)
        sourceText tr₂ language ctx₂).length =
      (pineconeAddTranslation store sourceText tr₁ language ctx₁).length := by
  constructor
  · exact mapGet_mapSet_self _ _ _
  · rw [pineconeAddTranslation, length_mapSet]
    rw [show mapGet (pineconeAddTranslation store sourceText tr₁ language ctx₁)
          (vectorRecordId language sourceText) =
        some ⟨sourceText, tr₁, language, ctx₁.getD "unknown"⟩ from
      mapGet_mapSet_self _ _ _]
    rfl

/-! ## Orchestrator per-entry properties (C6, C7) -/

/-- C6: `translateEntry` returns
`{original := entry.value, translated := t, isNew := true}` whenever the
generation call succeeds with `t` — including when the similarity lookup
failed, in which case the empty example list is substituted and
processing continues — and it fails exactly when the generation call (as
made, with the computed similar/glossary arguments) fails; that error
propagates unchanged. -/
theorem translateEntry_error_propagation (deps : TranslatorDeps)
    (hasVectorDB hasGlossary : Bool) (entry : I18nEntry)
    (targetLanguage : String) (options : ITranslationOptions) :
    (∀ t, deps.generateTranslation entry.value targetLanguage
        (translateCtx entry options)
        (similarArg deps hasVectorDB entry targetLanguage options)
        (glossaryArg deps hasGlossary targetLanguage options) = .ok t →
      ∃ w, translateEntry deps hasVectorDB hasGlossary entry targetLanguage options =
        .ok ({ original := entry.value, translated := t, isNew := true,
               changes := none }, w)) ∧
    (∀ e, translateEntry deps hasVectorDB hasGlossary entry targetLanguage options =
        .error e ↔
      deps.generateTranslation entry.value targetLanguage
        (translateCtx entry options)
        (similarArg deps hasVectorDB entry targetLanguage options)
        (glossaryArg deps hasGlossary targetLanguage options) = .error e) ∧
    (∀ msg, options.useVectorDB.getD true = true → hasVectorDB = true →
      deps.findSimilarTranslations entry.value targetLanguage
        (options.similarTranslationsLimit.getD 3) = .error msg →
      similarArg deps hasVectorDB entry targetLanguage options = some []) := by
  refine ⟨?_, ?_, ?_⟩
  · intro t ht
    rw [translateEntry, ht]
    exact ⟨_, rfl⟩
  · intro e
    rw [translateEntry]
    cases h : deps.generateTranslation entry.value targetLanguage
        (translateCtx entry options)
        (similarArg deps hasVectorDB entry targetLanguage options)
        (glossaryArg deps hasGlossary targetLanguage options) <;> simp
  · intro msg hopt hvec hfail
    rw [similarArg, hopt, hvec, hfail]
    simp

/-- C6 witness: a concrete oracle whose similarity lookup fails and
whose generation succeeds; `translateEntry` still returns the generated
text with `isNew := true`. -/
theorem translateEntry_error_propagation_witness :
    (TranslatorDeps.mk
        (fun _ _ _ => .error "vector DB down")
        (fun _ => .ok [])
        (fun v _ _ _ _ => .ok ("[ja] " ++ v))
        (fun _ t _ _ _ => .ok (t, "No changes needed"))).generateTranslation
      "Hello" "ja"
      (translateCtx { key := "x", value := "Hello" } {})
      (similarArg (TranslatorDeps.mk
        (fun _ _ _ => .error "vector DB down")
        (fun _ => .ok [])
        (fun v _ _ _ _ => .ok ("[ja] " ++ v))
        (fun _ t _ _ _ => .ok (t, "No changes needed"))) true
        { key := "x", value := "Hello" } "ja" {})
      (glossaryArg (TranslatorDeps.mk
        (fun _ _ _ => .error "vector DB down")
        (fun _ => .ok [])
        (fun v _ _ _ _ => .ok ("[ja] " ++ v))
        (fun _ t _ _ _ => .ok (t, "No changes needed"))) true "ja" {}) =
      .ok "[ja] Hello" ∧
    ∃ w, translateEntry (TranslatorDeps.mk
        (fun _ _ _ => .error "vector DB down")
        (fun _ => .ok [])
        (fun v _ _ _ _ => .ok ("[ja] " ++ v))
        (fun _ t _ _ _ => .ok (t, "No changes needed"))) true true
        { key := "x", value := "Hello" } "ja" {} =
      .ok ({ original := "Hello", translated := "[ja] Hello", isNew := true,
             changes := none }, w) :=
  ⟨rfl,
   (translateEntry_error_propagation _ true true _ "ja" {}).1 "[ja] Hello" rfl⟩

/-- C7: when the review call returns `improved`, `reviewEntry` attempts
the similarity-index write `addTranslation(source.value, improved,
language, ctx)` iff `improved` differs from the existing target value
(given a vector-DB client is present); when they are equal no write is
attempted; and the returned result is
`{original, translated := improved, isNew := false, changes}` in every
case — the write is fire-and-forget (its failure is caught and logged in
the TS source), so the result never depends on the write's outcome. -/
theorem reviewEntry_index_write_iff (deps : TranslatorDeps) (hasGlossary : Bool)
    (s t : I18nEntry) (targetLanguage : String) (options : ITranslationOptions)
    (improved changes : String)
    (hrev : deps.reviewTranslation s.value t.value targetLanguage
      (reviewCtx s t options)
      (glossaryArg deps hasGlossary targetLanguage options) = .ok (improved, changes)) :
    reviewEntry deps true hasGlossary s t targetLanguage options =
      .ok ({ original := s.value, translated := improved, isNew := false,
             changes := some changes },
        if improved = t.value then []
        else [{ sourceText := s.value, translation := improved,
                language := targetLanguage, context := reviewCtx s t options }]) := by
  rw [reviewEntry, hrev]
  by_cases h : improved = t.value <;> simp [h]

/-- C7 witness: a review oracle that returns an improved text differing
from the target value; the index write for it is attempted and the
result carries the improvement. -/
theorem reviewEntry_index_write_iff_witness :
    (TranslatorDeps.mk
        (fun _ _ _ => .ok [])
        (fun _ => .ok [])
        (fun v _ _ _ _ => .ok v)
        (fun _ _ _ _ _ => .ok ("Submit now", "tightened wording"))).reviewTranslation
      "Submit" "送信" "ja"
      (reviewCtx { key := "x", value := "Submit" } { key := "x", value := "送信" } {})
      (glossaryArg (TranslatorDeps.mk
        (fun _ _ _ => .ok [])
        (fun _ => .ok [])
        (fun v _ _ _ _ => .ok v)
        (fun _ _ _ _ _ => .ok ("Submit now", "tightened wording"))) true "ja" {}) =
      .ok ("Submit now", "tightened wording") ∧
    reviewEntry (TranslatorDeps.mk
        (fun _ _ _ => .ok [])
        (fun _ => .ok [])
        (fun v _ _ _ _ => .ok v)
        (fun _ _ _ _ _ => .ok ("Submit now", "tightened wording"))) true true
        { key := "x", value := "Submit" } { key := "x", value := "送信" } "ja" {} =
      .ok ({ original := "Submit", translated := "Submit now", isNew := false,
             changes := some "tightened wording" },
        if ("Submit now" : String) = "送信" then []
        else [{ sourceText := "Submit", translation := "Submit now",
                language := "ja",
                context := reviewCtx { key := "x", value := "Submit" }
                  { key := "x", value := "送信" } {} }]) :=
  ⟨rfl, reviewEntry_index_write_iff _ true _ _ "ja" {} "Submit now"
    "tightened wording" rfl⟩

/-! ## Diff classification (C4) and review selection (C1) -/

theorem compareI18nFiles_fold (tm : List (String × I18nEntry)) (src : List I18nEntry)
    (acc : CompareResult) :
    src.foldl (fun acc s =>
      match mapGet tm s.key with
      | none => { acc with missing := acc.missing ++ [s] }
      | some t =>
        if s.value ≠ t.value then
          { acc with outdated := acc.outdated ++ [(s, t)] }
        else acc) acc =
    ⟨acc.missing ++ src.filter (fun s => (mapGet tm s.key).isNone),
     acc.outdated ++ src.filterMap (fun s =>
       match mapGet tm s.key with
       | some t => if s.value ≠ t.value then some (s, t) else none
       | none => none)⟩ := by
  induction src generalizing acc with
  | nil => simp
  | cons s rest ih =>
    rw [List.foldl_cons, ih, List.filter_cons, List.filterMap_cons]
    cases h : mapGet tm s.key with
    | none => simp [h, List.append_assoc]
    | some t =>
      by_cases hv : s.value = t.value
      · simp [h, hv]
      · simp [h, hv, List.append_assoc]

/-- `compareI18nFiles` characterised: `missing` is the source entries
whose key has no target entry, `outdated` pairs each remaining source
entry with its target entry when the two values differ. -/
theorem compareI18nFiles_eq (src tgt : List I18nEntry) :
    compareI18nFiles src tgt =
    ⟨src.filter (fun s => (mapGet (targetMapOf tgt) s.key).isNone),
     src.filterMap (fun s =>
       match mapGet (targetMapOf tgt) s.key with
       | some t => if s.value ≠ t.value then some (s, t) else none
       | none => none)⟩ := by
  rw [compareI18nFiles]
  rw [compareI18nFiles_fold (targetMapOf tgt) src ⟨[], []⟩]
  simp

/-- `targetMapOf` (a `forEach` of `Map.set`) resolves a key to the last
target entry carrying it. -/
theorem mapGet_targetMapOf (tgt : List I18nEntry) (k : String) :
    mapGet (targetMapOf tgt) k = tgt.reverse.find? (fun e => e.key == k) := by
  suffices h : ∀ (m₀ : List (String × I18nEntry)),
      mapGet (tgt.foldl (fun m e => mapSet m e.key e) m₀) k =
        (tgt.reverse.find? (fun e => e.key == k)).or (mapGet m₀ k) by
    rw [targetMapOf, h []]
    simp
  induction tgt with
  | nil => simp
  | cons e rest ih =>
    intro m₀
    rw [List.foldl_cons, ih, List.reverse_cons, List.find?_append]
    cases hfind : rest.reverse.find? (fun e => e.key == k) with
    | some e' => simp
    | none =>
      simp only [Option.none_or]
      by_cases hk : e.key = k
      · subst hk
        rw [mapGet_mapSet_self]
        simp [List.find?]
      · rw [mapGet_mapSet_ne _ _ _ _ hk]
        simp [List.find?, beq_eq_false_iff_ne.2 hk]

theorem mapGet_targetMapOf_isSome_iff (tgt : List I18nEntry) (k : String) :
    (mapGet (targetMapOf tgt) k).isSome = true ↔ ∃ e ∈ tgt, e.key = k := by
  rw [mapGet_targetMapOf]
  simp

theorem mapGet_targetMapOf_eq_none_iff (tgt : List I18nEntry) (k : String) :
    mapGet (targetMapOf tgt) k = none ↔ ∀ e ∈ tgt, e.key ≠ k := by
  rw [mapGet_targetMapOf, List.find?_eq_none]
  simp

theorem mapGet_targetMapOf_mem (tgt : List I18nEntry) (k : String) (t : I18nEntry)
    (h : mapGet (targetMapOf tgt) k = some t) : t ∈ tgt ∧ t.key = k := by
  rw [mapGet_targetMapOf] at h
  refine ⟨List.mem_reverse.1 (List.mem_of_find?_eq_some h), ?_⟩
  simpa using List.find?_some h

/-- Membership in the `outdated` pair list. -/
theorem mem_outdated_iff (src tgt : List I18nEntry) (s t : I18nEntry) :
    (s, t) ∈ (compareI18nFiles src tgt).outdated ↔
      s ∈ src ∧ mapGet (targetMapOf tgt) s.key = some t ∧ s.value ≠ t.value := by
  rw [compareI18nFiles_eq]
  simp only [List.mem_filterMap]
  constructor
  · rintro ⟨s', hs', hf⟩
    cases hget : mapGet (targetMapOf tgt) s'.key with
    | none => rw [hget] at hf; simp at hf
    | some t' =>
      rw [hget] at hf
      have hf' : (if s'.value ≠ t'.value then some (s', t') else none) = some (s, t) :=
        hf
      by_cases hv : s'.value = t'.value
      · rw [if_neg (not_not_intro hv)] at hf'
        exact Option.noConfusion hf'
      · rw [if_pos hv] at hf'
        have hp : (s', t') = (s, t) := Option.some.inj hf'
        cases hp
        exact ⟨hs', hget, hv⟩
  · rintro ⟨hs, hget, hv⟩
    refine ⟨s, hs, ?_⟩
    rw [hget]
    show (if s.value ≠ t.value then some (s, t) else none) = some (s, t)
    rw [if_pos hv]

/-- Membership in the `missing` list. -/
theorem mem_missing_iff (src tgt : List I18nEntry) (s : I18nEntry) :
    s ∈ (compareI18nFiles src tgt).missing ↔
      s ∈ src ∧ mapGet (targetMapOf tgt) s.key = none := by
  rw [compareI18nFiles_eq]
  simp [List.mem_filter, Option.isNone_iff_eq_none]

/-- C4: every source entry is classified exactly one way by
`compareI18nFiles`: in `missing` (no target entry for its key), paired
in `outdated` (target entry present, values differ), or
present-and-unchanged (target entry present, same value) — never none
of these and never two of them. -/
theorem compareI18nFiles_trichotomy (src tgt : List I18nEntry) (s : I18nEntry)
    (hs : s ∈ src) :
    (s ∈ (compareI18nFiles src tgt).missing ∧
      ¬(∃ t, (s, t) ∈ (compareI18nFiles src tgt).outdated) ∧
      ¬(∃ t, mapGet (targetMapOf tgt) s.key = some t ∧ s.value = t.value)) ∨
    (s ∉ (compareI18nFiles src tgt).missing ∧
      (∃ t, (s, t) ∈ (compareI18nFiles src tgt).outdated) ∧
      ¬(∃ t, mapGet (targetMapOf tgt) s.key = some t ∧ s.value = t.value)) ∨
    (s ∉ (compareI18nFiles src tgt).missing ∧
      ¬(∃ t, (s, t) ∈ (compareI18nFiles src tgt).outdated) ∧
      (∃ t, mapGet (targetMapOf tgt) s.key = some t ∧ s.value = t.value)) := by
  cases hget : mapGet (targetMapOf tgt) s.key with
  | none =>
    refine Or.inl ⟨(mem_missing_iff src tgt s).2 ⟨hs, hget⟩, ?_, ?_⟩
    · rintro ⟨t, ht⟩
      have h2 := ((mem_outdated_iff src tgt s t).1 ht).2.1
      rw [hget] at h2
      exact Option.noConfusion h2
    · rintro ⟨t, ht, _⟩
      exact Option.noConfusion ht
  | some t =>
    have hnm : s ∉ (compareI18nFiles src tgt).missing := by
      intro hmem
      have h2 := ((mem_missing_iff src tgt s).1 hmem).2
      rw [hget] at h2
      exact Option.noConfusion h2
    by_cases hv : s.value = t.value
    · refine Or.inr (Or.inr ⟨hnm, ?_, t, rfl, hv⟩)
      rintro ⟨t', ht'⟩
      have h2 := ((mem_outdated_iff src tgt s t').1 ht').2
      rw [hget] at h2
      cases Option.some.inj h2.1
      exact h2.2 hv
    · refine Or.inr (Or.inl ⟨hnm, ⟨t, (mem_outdated_iff src tgt s t).2 ⟨hs, hget, hv⟩⟩, ?_⟩)
      rintro ⟨t', ht', hv'⟩
      cases Option.some.inj ht'
      exact hv hv'

/-- C4 witness: the trichotomy applied to the concrete source entry
`x ↦ Submit` against the target `x ↦ 送信` (the outdated branch holds). -/
theorem compareI18nFiles_trichotomy_witness :
    (({ key := "x", value := "Submit" } : I18nEntry) ∈
      [({ key := "x", value := "Submit" } : I18nEntry)]) ∧
    ((({ key := "x", value := "Submit" } : I18nEntry) ∈
        (compareI18nFiles [{ key := "x", value := "Submit" }]
          [{ key := "x", value := "送信" }]).missing ∧
      ¬(∃ t, (({ key := "x", value := "Submit" } : I18nEntry), t) ∈
          (compareI18nFiles [{ key := "x", value := "Submit" }]
            [{ key := "x", value := "送信" }]).outdated) ∧
      ¬(∃ t, mapGet (targetMapOf [{ key := "x", value := "送信" }])
            ({ key := "x", value := "Submit" } : I18nEntry).key = some t ∧
          ({ key := "x", value := "Submit" } : I18nEntry).value = t.value)) ∨
    (({ key := "x", value := "Submit" } : I18nEntry) ∉
        (compareI18nFiles [{ key := "x", value := "Submit" }]
          [{ key := "x", value := "送信" }]).missing ∧
      (∃ t, (({ key := "x", value := "Submit" } : I18nEntry), t) ∈
          (compareI18nFiles [{ key := "x", value := "Submit" }]
            [{ key := "x", value := "送信" }]).outdated) ∧
      ¬(∃ t, mapGet (targetMapOf [{ key := "x", value := "送信" }])
            ({ key := "x", value := "Submit" } : I18nEntry).key = some t ∧
          ({ key := "x", value := "Submit" } : I18nEntry).value = t.value)) ∨
    (({ key := "x", value := "Submit" } : I18nEntry) ∉
        (compareI18nFiles [{ key := "x", value := "Submit" }]
          [{ key := "x", value := "送信" }]).missing ∧
      ¬(∃ t, (({ key := "x", value := "Submit" } : I18nEntry), t) ∈
          (compareI18nFiles [{ key := "x", value := "Submit" }]
            [{ key := "x", value := "送信" }]).outdated) ∧
      (∃ t, mapGet (targetMapOf [{ key := "x", value := "送信" }])
            ({ key := "x", value := "Submit" } : I18nEntry).key = some t ∧
          ({ key := "x", value := "Submit" } : I18nEntry).value = t.value))) :=
  ⟨List.mem_singleton.2 rfl,
   compareI18nFiles_trichotomy [{ key := "x", value := "Submit" }]
     [{ key := "x", value := "送信" }] { key := "x", value := "Submit" }
     (List.mem_singleton.2 rfl)⟩

/-- C1, counterexample (end-to-end scenario C): source `x ↦ "Submit"`,
target `x ↦ "送信済み"` translated from the unchanged source text
"Submit".  The code stores no `translatedFrom` provenance:
`compareI18nFiles` compares `source.value` against `target.value`
directly, and "Submit" ≠ "送信済み", so the `all = false` review driver
selects one entry for `x`, not zero. -/
theorem reviewSelection_scenarioC_not_empty :
    reviewSelection [{ key := "x", value := "Submit" }]
      [{ key := "x", value := "送信済み" }] false =
      [{ key := "x", value := "Submit" }] ∧
    reviewSelection [{ key := "x", value := "Submit" }]
      [{ key := "x", value := "送信済み" }] false ≠ [] := by
  constructor
  · rfl
  · decide

/-- C1 amended: the review driver has no provenance field to consult;
for a source entry whose key resolves to target entry `t`, the
`all = true` mode selects it unconditionally, and the `all = false` mode
selects it iff the source value differs from the *target value* (the
translated text) — so a target translated from the current source text is
still selected whenever its translation differs textually from the
source. -/
theorem reviewSelection_selects_iff (src tgt : List I18nEntry) (s t : I18nEntry)
    (hs : s ∈ src) (ht : mapGet (targetMapOf tgt) s.key = some t) :
    s ∈ reviewSelection src tgt true ∧
    (s ∈ reviewSelection src tgt false ↔ s.value ≠ t.value) := by
  constructor
  · rw [reviewSelection]
    simp only [if_pos]
    rw [List.mem_filter]
    refine ⟨hs, ?_⟩
    obtain ⟨htm, htk⟩ := mapGet_targetMapOf_mem tgt s.key t ht
    exact List.any_eq_true.2 ⟨t, htm, by simpa using htk⟩
  · rw [reviewSelection]
    simp only [Bool.false_eq_true, if_false, List.mem_map]
    constructor
    · rintro ⟨⟨s', t'⟩, hmem, rfl⟩
      have h := (mem_outdated_iff src tgt s' t').1 hmem
      rw [ht] at h
      cases Option.some.inj h.2.1
      exact h.2.2
    · intro hv
      exact ⟨(s, t), (mem_outdated_iff src tgt s t).2 ⟨hs, ht, hv⟩, rfl⟩

/-- C1 witness: the amended statement applied to scenario C's concrete
catalogs. -/
theorem reviewSelection_selects_iff_witness :
    (({ key := "x", value := "Submit" } : I18nEntry) ∈
      [({ key := "x", value := "Submit" } : I18nEntry)]) ∧
    mapGet (targetMapOf [{ key := "x", value := "送信済み" }])
      ({ key := "x", value := "Submit" } : I18nEntry).key =
      some { key := "x", value := "送信済み" } ∧
    (({ key := "x", value := "Submit" } : I18nEntry) ∈
      reviewSelection [{ key := "x", value := "Submit" }]
        [{ key := "x", value := "送信済み" }] true ∧
    (({ key := "x", value := "Submit" } : I18nEntry) ∈
        reviewSelection [{ key := "x", value := "Submit" }]
          [{ key := "x", value := "送信済み" }] false ↔
      ({ key := "x", value := "Submit" } : I18nEntry).value ≠
        ({ key := "x", value := "送信済み" } : I18nEntry).value)) :=
  ⟨List.mem_singleton.2 rfl, by rfl,
   reviewSelection_selects_iff [{ key := "x", value := "Submit" }]
     [{ key := "x", value := "送信済み" }] { key := "x", value := "Submit" }
     { key := "x", value := "送信済み" } (List.mem_singleton.2 rfl) (by rfl)⟩

/-! ## Translate-driver merge (C8) -/

theorem mergeTranslations_eq (src tgt : List I18nEntry)
    (results : List (String × ITranslationResult)) :
    mergeTranslations src tgt results =
      tgt ++ src.filterMap (fun s =>
        match mapGet (targetMapOf tgt) s.key with
        | some _ => none
        | none =>
          match mapGet results s.key with
          | some r => some { key := s.key, value := r.translated, context := s.context }
          | none => none) := rfl

theorem length_filter_key_filterMap (f : I18nEntry → Option I18nEntry)
    (hf : ∀ s e, f s = some e → e.key = s.key) (src : List I18nEntry) (k : String) :
    ((src.filterMap f).filter (fun e => e.key == k)).length =
      (src.filter (fun s => s.key == k && (f s).isSome)).length := by
  induction src with
  | nil => rfl
  | cons s rest ih =>
    rw [List.filterMap_cons, List.filter_cons]
    cases hfs : f s with
    | none => simp [hfs, ih]
    | some e =>
      have hek : e.key = s.key := hf s e hfs
      rw [List.filter_cons]
      by_cases hk : (s.key == k) = true
      · simp [hek, hk, hfs, ih]
      · simp [hek, Bool.eq_false_iff.2 hk, hfs, ih]

/-- With pairwise-distinct source keys, the unique source entry with key
`k` is the only one the filter can keep. -/
theorem length_filter_key_src (src : List I18nEntry) (s : I18nEntry)
    (hnd : (src.map (fun e => e.key)).Nodup) (hs : s ∈ src) (q : I18nEntry → Bool)
    (hq : q s = true) :
    (src.filter (fun x => x.key == s.key && q x)).length = 1 := by
  have hcongr : ∀ x ∈ src, (x.key == s.key && q x) = (x.key == s.key) := by
    intro x hx
    by_cases hk : x.key = s.key
    · have : x = s := List.inj_on_of_nodup_map hnd hx hs hk
      subst this
      simp [hq]
    · simp [beq_eq_false_iff_ne.2 hk]
  rw [List.filter_congr hcongr]
  have h1 : (src.filter (fun x => x.key == s.key)).length =
      ((src.map (fun e => e.key)).filter (fun k' => k' == s.key)).length := by
    rw [List.filter_map, List.length_map]
    rfl
  rw [h1, ← List.countP_eq_length_filter]
  have : (src.map (fun e => e.key)).countP (fun k' => k' == s.key) =
      (src.map (fun e => e.key)).count s.key := rfl
  rw [this, List.count_eq_one_of_mem hnd (List.mem_map.2 ⟨s, hs, rfl⟩)]

/-- C8: the merge step of the translate driver keeps every pre-existing
target entry as is; a source key with no target entry for which
`batchTranslate` produced a result appears exactly once in the merged
entry list, carrying the translated value; a source key with no target
entry and no result is absent from the merged list altogether. -/
theorem translate_merge_frame (src tgt : List I18nEntry)
    (results : List (String × ITranslationResult))
    (hnd : (src.map (fun e => e.key)).Nodup) :
    (∀ t ∈ tgt, t ∈ mergeTranslations src tgt results) ∧
    (∀ s ∈ src, ∀ r, mapGet (targetMapOf tgt) s.key = none →
      mapGet results s.key = some r →
      ((mergeTranslations src tgt results).filter
          (fun e => e.key == s.key)).length = 1 ∧
      ({ key := s.key, value := r.translated, context := s.context } : I18nEntry) ∈
        mergeTranslations src tgt results) ∧
    (∀ k, mapGet (targetMapOf tgt) k = none → mapGet results k = none →
      ∀ e ∈ mergeTranslations src tgt results, e.key ≠ k) := by
  refine ⟨fun t ht => by rw [mergeTranslations_eq]; exact List.mem_append_left _ ht,
    ?_, ?_⟩
  · intro s hs r hT hR
    have hf : ∀ (s' e : I18nEntry), (fun x : I18nEntry =>
        match mapGet (targetMapOf tgt) x.key with
        | some _ => none
        | none =>
          match mapGet results x.key with
          | some r => some { key := x.key, value := r.translated, context := x.context }
          | none => none) s' = some e → e.key = s'.key := by
      intro s' e he
      simp only [] at he
      cases h1 : mapGet (targetMapOf tgt) s'.key with
      | some _ => rw [h1] at he; exact Option.noConfusion he
      | none =>
        rw [h1] at he
        cases h2 : mapGet results s'.key with
        | some r' =>
          rw [h2] at he
          cases Option.some.inj he
          rfl
        | none => rw [h2] at he; exact Option.noConfusion he
    have hfs : ((fun x : I18nEntry =>
        match mapGet (targetMapOf tgt) x.key with
        | some _ => none
        | none =>
          match mapGet results x.key with
          | some r => some { key := x.key, value := r.translated, context := x.context }
          | none => none) : I18nEntry → Option I18nEntry) s =
        some { key := s.key, value := r.translated, context := s.context } := by
      simp [hT, hR]
    constructor
    · rw [mergeTranslations_eq, List.filter_append, List.length_append]
      have h1 : tgt.filter (fun e => e.key == s.key) = [] := by
        rw [List.filter_eq_nil_iff]
        intro e he
        simpa using (mapGet_targetMapOf_eq_none_iff tgt s.key).1 hT e he
      rw [h1, length_filter_key_filterMap _ hf src s.key]
      simp only [List.length_nil, Nat.zero_add]
      exact length_filter_key_src src s hnd hs _ (by simp [hT, hR])
    · rw [mergeTranslations_eq]
      exact List.mem_append_right _ (List.mem_filterMap.2 ⟨s, hs, hfs⟩)
  · intro k hT hR e he hek
    rw [mergeTranslations_eq] at he
    rcases List.mem_append.1 he with htgt | hnew
    · exact (mapGet_targetMapOf_eq_none_iff tgt k).1 hT e htgt hek
    · rcases List.mem_filterMap.1 hnew with ⟨s', hs', hfs'⟩
      cases h1 : mapGet (targetMapOf tgt) s'.key with
      | some t' => rw [h1] at hfs'; exact Option.noConfusion hfs'
      | none =>
        rw [h1] at hfs'
        cases h2 : mapGet results s'.key with
        | some r' =>
          rw [h2] at hfs'
          cases Option.some.inj hfs'
          rw [hek] at h2
          rw [hR] at h2
          exact Option.noConfusion h2
        | none => rw [h2] at hfs'; exact Option.noConfusion hfs'

/-- C8 witness: one pre-existing target entry, one freshly translated
source key, one failed source key. -/
theorem translate_merge_frame_witness :
    ((([{ key := "a", value := "Hello" }, { key := "b", value := "Bye" },
        { key := "c", value := "Goodbye" }] : List I18nEntry).map
        (fun e => e.key)).Nodup) ∧
    (({ key := "a", value := "こんにちは" } : I18nEntry) ∈
      mergeTranslations
        ([{ key := "a", value := "Hello" }, { key := "b", value := "Bye" },
          { key := "c", value := "Goodbye" }] : List I18nEntry)
        [{ key := "a", value := "こんにちは" }]
        [("b", ({ original := "Bye", translated := "バイ", isNew := true }
          : ITranslationResult))]) :=
  ⟨by decide,
   (translate_merge_frame
     ([{ key := "a", value := "Hello" }, { key := "b", value := "Bye" },
       { key := "c", value := "Goodbye" }] : List I18nEntry)
     [{ key := "a", value := "こんにちは" }]
     [("b", ({ original := "Bye", translated := "バイ", isNew := true }
       : ITranslationResult))]
     (by decide)).1
     { key := "a", value := "こんにちは" } (List.mem_singleton.2 rfl)⟩

/-! ## Window-loop lemmas (C2, C10) -/

@[simp] theorem chunksOf_nil (c : Nat) : chunksOf c ([] : List α) = [] := by
  cases c <;> simp [chunksOf]

theorem chunksOf_pos (c : Nat) (hc : 1 ≤ c) (l : List α) (hl : l ≠ []) :
    chunksOf c l = l.take c :: chunksOf c (l.drop c) := by
  match c, l with
  | 0, _ => omega
  | c + 1, [] => exact absurd rfl hl
  | c + 1, x :: xs => rw [chunksOf]

theorem chunksOf_flatten (c : Nat) (hc : 1 ≤ c) :
    ∀ l : List α, (chunksOf c l).flatten = l
  | l => by
    rcases eq_or_ne l [] with rfl | hne
    · simp
    · rw [chunksOf_pos c hc l hne, List.flatten_cons,
        chunksOf_flatten c hc (l.drop c), List.take_append_drop]
  termination_by l => l.length
  decreasing_by
    simp_wf
    exact ⟨List.length_pos.2 hne, by omega⟩

theorem chunksOf_nil_iff (c : Nat) (hc : 1 ≤ c) (l : List α) :
    chunksOf c l = [] ↔ l = [] := by
  constructor
  · intro h
    by_contra hne
    rw [chunksOf_pos c hc l hne] at h
    exact List.noConfusion h
  · rintro rfl
    simp

/-- With enough fuel and `concurrency ≥ 1`, the window loop terminates
and computes the fold of the step function over the windows. -/
theorem windowLoop_some (step : List α → β → β) (l : List α) (c : Nat)
    (hc : 1 ≤ c) :
    ∀ (fuel i : Nat) (acc : β), l.length - i ≤ c * fuel →
      windowLoop step l c fuel i acc =
        some ((chunksOf c (l.drop i)).foldl (fun b w => step w b) acc) := by
  intro fuel
  induction fuel with
  | zero =>
    intro i acc hle
    have hge : l.length ≤ i := by omega
    rw [windowLoop, if_neg (by omega)]
    rw [List.drop_eq_nil_of_le hge, chunksOf_nil]
    rfl
  | succ fuel ih =>
    intro i acc hle
    by_cases hi : i < l.length
    · rw [windowLoop, if_pos hi]
      rw [ih (i + c) (step ((l.drop i).take c) acc) (by
        have h1 : c * (fuel + 1) = c * fuel + c := by ring
        omega)]
      have hne : l.drop i ≠ [] := by
        intro hnil
        have h2 := congrArg List.length hnil
        rw [List.length_drop] at h2
        simp at h2
        omega
      rw [chunksOf_pos c hc (l.drop i) hne, List.drop_drop, Nat.add_comm i c,
        List.foldl_cons]
    · rw [windowLoop, if_neg hi]
      rw [List.drop_eq_nil_of_le (by omega), chunksOf_nil]
      rfl

/-- With insufficient fuel the loop does not finish. -/
theorem windowLoop_none (step : List α → β → β) (l : List α) (c : Nat) :
    ∀ (fuel i : Nat) (acc : β), c * fuel < l.length - i →
      windowLoop step l c fuel i acc = none := by
  intro fuel
  induction fuel with
  | zero =>
    intro i acc hlt
    rw [windowLoop, if_pos (by omega)]
  | succ fuel ih =>
    intro i acc hlt
    have h1 : c * (fuel + 1) = c * fuel + c := by ring
    rw [windowLoop, if_pos (by omega)]
    exact ih (i + c) _ (by omega)

/-- With `concurrency = 0` the loop index never advances: no fuel makes
the loop terminate on a non-empty entry list. -/
theorem windowLoop_zero (step : List α → β → β) (l : List α) :
    ∀ (fuel i : Nat) (acc : β), i < l.length →
      windowLoop step l 0 fuel i acc = none := by
  intro fuel
  induction fuel with
  | zero =>
    intro i acc hi
    rw [windowLoop, if_pos hi]
  | succ fuel ih =>
    intro i acc hi
    rw [windowLoop, if_pos hi]
    exact ih i _ hi

theorem numWindows_ge (c n : Nat) (hc : 1 ≤ c) : n ≤ c * numWindows c n := by
  have h1 := Nat.div_add_mod (n + c - 1) c
  have h2 := Nat.mod_lt (n + c - 1) (show 0 < c by omega)
  rw [numWindows]
  omega

theorem numWindows_lt (c n : Nat) (hc : 1 ≤ c) (hn : 1 ≤ n) :
    c * (numWindows c n - 1) < n := by
  have h1 := Nat.div_add_mod (n + c - 1) c
  have h2 := Nat.mod_lt (n + c - 1) (show 0 < c by omega)
  have h3 : 1 ≤ numWindows c n := by
    rw [numWindows]
    rw [Nat.le_div_iff_mul_le (show 0 < c by omega)]
    omega
  have h4 : c * (numWindows c n - 1) + c = c * numWindows c n := by
    have h5 : numWindows c n - 1 + 1 = numWindows c n := by omega
    calc c * (numWindows c n - 1) + c = c * (numWindows c n - 1 + 1) := by ring
      _ = c * numWindows c n := by rw [h5]
  rw [numWindows] at *
  omega

/-- Folding window-wise is folding entry-wise (windows flatten back to
the entry list). -/
theorem foldl_chunksOf (c : Nat) (hc : 1 ≤ c) (l : List α) (g : β → α → β) (acc : β) :
    (chunksOf c l).foldl (fun b w => w.foldl g b) acc = l.foldl g acc := by
  rw [← List.foldl_flatten, chunksOf_flatten c hc]

/-! ## Batch-fold characterisation (C2) -/

theorem foldl_sel_get_of_ne (sel : I18nEntry → Option ITranslationResult) :
    ∀ (entries : List I18nEntry) (m₀ : List (String × ITranslationResult)) (k : String),
      (∀ e ∈ entries, e.key ≠ k) →
      mapGet (entries.foldl (fun m e =>
        match sel e with
        | some r => mapSet m e.key r
        | none => m) m₀) k = mapGet m₀ k := by
  intro entries
  induction entries with
  | nil => intro m₀ k _; rfl
  | cons e rest ih =>
    intro m₀ k h
    rw [List.foldl_cons]
    have hek : e.key ≠ k := h e (List.mem_cons_self e rest)
    have hrest : ∀ x ∈ rest, x.key ≠ k := fun x hx => h x (List.mem_cons_of_mem e hx)
    cases hse : sel e with
    | some r =>
      simp only [hse]
      rw [ih _ k hrest, mapGet_mapSet_ne _ _ _ _ hek]
    | none =>
      simp only [hse]
      exact ih _ k hrest

theorem foldl_sel_length (sel : I18nEntry → Option ITranslationResult) :
    ∀ (entries : List I18nEntry) (m₀ : List (String × ITranslationResult)),
      (∀ e ∈ entries, mapGet m₀ e.key = none) →
      (entries.map (fun e => e.key)).Nodup →
      (entries.foldl (fun m e =>
        match sel e with
        | some r => mapSet m e.key r
        | none => m) m₀).length =
        m₀.length + (entries.filter (fun e => (sel e).isSome)).length := by
  intro entries
  induction entries with
  | nil => intro m₀ _ _; simp
  | cons e rest ih =>
    intro m₀ hfresh hnd
    rw [List.map_cons, List.nodup_cons] at hnd
    have hfe : mapGet m₀ e.key = none := hfresh e (List.mem_cons_self e rest)
    rw [List.foldl_cons, List.filter_cons]
    cases hse : sel e with
    | some r =>
      simp only [hse, Option.isSome_some, if_pos]
      have hfresh' : ∀ x ∈ rest, mapGet (mapSet m₀ e.key r) x.key = none := by
        intro x hx
        have hxk : e.key ≠ x.key := by
          intro hk
          exact hnd.1 (hk ▸ List.mem_map.2 ⟨x, hx, rfl⟩)
        rw [mapGet_mapSet_ne _ _ _ _ hxk]
        exact hfresh x (List.mem_cons_of_mem e hx)
      rw [ih (mapSet m₀ e.key r) hfresh' hnd.2]
      rw [length_mapSet, hfe]
      simp only [Option.isSome_none, Bool.false_eq_true, if_false]
      rw [List.length_cons]
      omega
    | none =>
      simp only [hse, Option.isSome_none, Bool.false_eq_true, if_false]
      exact ih m₀ (fun x hx => hfresh x (List.mem_cons_of_mem e hx)) hnd.2

theorem foldl_sel_get (sel : I18nEntry → Option ITranslationResult) :
    ∀ (entries : List I18nEntry) (m₀ : List (String × ITranslationResult)),
      (∀ e ∈ entries, mapGet m₀ e.key = none) →
      (entries.map (fun e => e.key)).Nodup →
      ∀ e ∈ entries,
        mapGet (entries.foldl (fun m e' =>
          match sel e' with
          | some r => mapSet m e'.key r
          | none => m) m₀) e.key = sel e := by
  intro entries
  induction entries with
  | nil => intro _ _ _ e he; simp at he
  | cons e rest ih =>
    intro m₀ hfresh hnd x hx
    rw [List.map_cons, List.nodup_cons] at hnd
    have hfe : mapGet m₀ e.key = none := hfresh e (List.mem_cons_self e rest)
    rw [List.foldl_cons]
    rcases List.mem_cons.1 hx with rfl | hx'
    · have hrest : ∀ y ∈ rest, y.key ≠ x.key := by
        intro y hy hk
        exact hnd.1 (hk ▸ List.mem_map.2 ⟨y, hy, rfl⟩)
      rw [foldl_sel_get_of_ne sel rest _ x.key hrest]
      cases hse : sel x with
      | some r => simp only [hse]; exact mapGet_mapSet_self _ _ _
      | none => simp only [hse]; exact hfe
    · have hfresh' : ∀ y ∈ rest, mapGet (match sel e with
          | some r => mapSet m₀ e.key r
          | none => m₀) y.key = none := by
        intro y hy
        have hyk : e.key ≠ y.key := by
          intro hk
          exact hnd.1 (hk ▸ List.mem_map.2 ⟨y, hy, rfl⟩)
        cases hse : sel e with
        | some r =>
          simp only [hse]
          rw [mapGet_mapSet_ne _ _ _ _ hyk]
          exact hfresh y (List.mem_cons_of_mem e hy)
        | none =>
          simp only [hse]
          exact hfresh y (List.mem_cons_of_mem e hy)
      exact ih _ hfresh' hnd.2 x hx'

theorem length_filter_eq_sub (l : List I18nEntry) (p q : I18nEntry → Bool)
    (hpq : ∀ e ∈ l, p e = !q e) :
    (l.filter p).length = l.length - (l.filter q).length := by
  induction l with
  | nil => rfl
  | cons e rest ih =>
    have hle := List.length_filter_le q rest
    have hp := hpq e (List.mem_cons_self e rest)
    have ih' := ih (fun x hx => hpq x (List.mem_cons_of_mem e hx))
    rw [List.filter_cons, List.filter_cons]
    cases hq : q e with
    | true =>
      rw [hq] at hp
      simp only [hp, Bool.not_true, Bool.false_eq_true, if_false, if_pos]
      simp only [List.length_cons]
      rw [ih']
      omega
    | false =>
      rw [hq] at hp
      simp only [hp, Bool.not_false, if_pos, Bool.false_eq_true, if_false]
      simp only [List.length_cons]
      rw [ih']
      omega

/-- C2: with distinct entry keys and an effective concurrency ≥ 1 (the
default is 5), `batchTranslate` returns (it never rejects: each
per-entry failure is caught inside the window) a result map with exactly
`N - |F|` entries, where `F` is the set of entries whose generation call
fails; every non-`F` entry's key maps to exactly the result
`translateEntry` produces for it, and every `F` entry's key is absent. -/
theorem batchTranslate_isolation (deps : TranslatorDeps)
    (hasVectorDB hasGlossary : Bool) (entries : List I18nEntry)
    (targetLanguage : String) (options : ITranslationOptions)
    (hc : 1 ≤ options.concurrency.getD 5)
    (hnd : (entries.map (fun e => e.key)).Nodup) :
    ∃ m, batchTranslate deps hasVectorDB hasGlossary entries targetLanguage options =
        some m ∧
      m.length = entries.length - (entries.filter (fun e =>
        match deps.generateTranslation e.value targetLanguage
            (translateCtx e options)
            (similarArg deps hasVectorDB e targetLanguage options)
            (glossaryArg deps hasGlossary targetLanguage options) with
        | .ok _ => false
        | .error _ => true)).length ∧
      (∀ e ∈ entries, ∀ r w,
        translateEntry deps hasVectorDB hasGlossary e targetLanguage options =
          .ok (r, w) → mapGet m e.key = some r) ∧
      (∀ e ∈ entries, ∀ err,
        deps.generateTranslation e.value targetLanguage
            (translateCtx e options)
            (similarArg deps hasVectorDB e targetLanguage options)
            (glossaryArg deps hasGlossary targetLanguage options) = .error err →
          mapGet m e.key = none) := by
  have hmain : batchTranslate deps hasVectorDB hasGlossary entries targetLanguage
      options =
      some (entries.foldl (fun m e =>
        match (fun e' : I18nEntry =>
          match translateEntry deps hasVectorDB hasGlossary e' targetLanguage options with
          | .ok (r, _) => some r
          | .error _ => none) e with
        | some r => mapSet m e.key r
        | none => m) []) := by
    rw [batchTranslate, batchTranslateF]
    rw [windowLoop_some _ _ _ hc entries.length 0 [] (by
      rw [Nat.sub_zero]
      exact Nat.le_mul_of_pos_left _ (by omega))]
    rw [List.drop_zero]
    congr 1
    rw [show (fun (b : List (String × ITranslationResult)) (w : List I18nEntry) =>
        translateWindowStep deps hasVectorDB hasGlossary targetLanguage options w b) =
      (fun b w => w.foldl (fun m e =>
        match translateEntry deps hasVectorDB hasGlossary e targetLanguage options with
        | .ok (r, _) => mapSet m e.key r
        | .error _ => m) b) from rfl]
    rw [foldl_chunksOf _ hc]
    have hfun : (fun (m : List (String × ITranslationResult)) (e : I18nEntry) =>
        match translateEntry deps hasVectorDB hasGlossary e targetLanguage options with
        | .ok (r, _) => mapSet m e.key r
        | .error _ => m) =
      (fun m e =>
        match (fun e' : I18nEntry =>
          match translateEntry deps hasVectorDB hasGlossary e' targetLanguage options with
          | .ok (r, _) => some r
          | .error _ => none) e with
        | some r => mapSet m e.key r
        | none => m) := by
      funext m e
      cases h : translateEntry deps hasVectorDB hasGlossary e targetLanguage options with
      | ok p =>
        cases p with
        | mk r w => simp [h]
      | error err => simp [h]
    rw [hfun]
  refine ⟨_, hmain, ?_, ?_, ?_⟩
  · rw [foldl_sel_length _ entries [] (by intro e _; rfl) hnd]
    rw [List.length_nil, Nat.zero_add]
    rw [length_filter_eq_sub entries _ (fun e =>
      match deps.generateTranslation e.value targetLanguage
          (translateCtx e options)
          (similarArg deps hasVectorDB e targetLanguage options)
          (glossaryArg deps hasGlossary targetLanguage options) with
      | .ok _ => false
      | .error _ => true) ?_]
    intro e _
    cases h : deps.generateTranslation e.value targetLanguage
        (translateCtx e options)
        (similarArg deps hasVectorDB e targetLanguage options)
        (glossaryArg deps hasGlossary targetLanguage options) with
    | ok t =>
      have he : translateEntry deps hasVectorDB hasGlossary e targetLanguage options =
          .ok ({ original := e.value, translated := t, isNew := true },
            if options.useVectorDB.getD true && hasVectorDB then
              [{ sourceText := e.value, translation := t,
                 language := targetLanguage, context := translateCtx e options }]
            else []) := by
        simp only [translateEntry]
        rw [h]
      simp [he, h]
    | error err =>
      have he : translateEntry deps hasVectorDB hasGlossary e targetLanguage options =
          .error err := by
        simp only [translateEntry]
        rw [h]
      simp [he, h]
  · intro e he r w hok
    rw [foldl_sel_get _ entries [] (by intro x _; rfl) hnd e he, hok]
  · intro e he err herr
    rw [foldl_sel_get _ entries [] (by intro x _; rfl) hnd e he]
    have htr : translateEntry deps hasVectorDB hasGlossary e targetLanguage options =
        .error err := by
      simp only [translateEntry]
      rw [herr]
    rw [htr]

/-- C2 witness: three entries with the middle one failing generation;
`batchTranslate` returns a 2-entry map. -/
theorem batchTranslate_isolation_witness :
    (1 ≤ ({} : ITranslationOptions).concurrency.getD 5) ∧
    ((entriesFix.map (fun e => e.key)).Nodup) ∧
    (∃ m, batchTranslate depsFix true true entriesFix "ja" {} = some m ∧
      m.length = entriesFix.length - (entriesFix.filter (fun e =>
        match depsFix.generateTranslation e.value "ja" (translateCtx e {})
            (similarArg depsFix true e "ja" {})
            (glossaryArg depsFix true "ja" {}) with
        | .ok _ => false
        | .error _ => true)).length ∧
      (∀ e ∈ entriesFix, ∀ r w,
        translateEntry depsFix true true e "ja" {} = .ok (r, w) →
          mapGet m e.key = some r) ∧
      (∀ e ∈ entriesFix, ∀ err,
        depsFix.generateTranslation e.value "ja" (translateCtx e {})
            (similarArg depsFix true e "ja" {})
            (glossaryArg depsFix true "ja" {}) = .error err →
          mapGet m e.key = none)) :=
  ⟨by decide, by decide,
   batchTranslate_isolation depsFix true true entriesFix "ja" {} (by decide) (by decide)⟩

/-- C10: with effective concurrency `c ≥ 1` (default 5) both batch loops
terminate, in exactly `⌈total / c⌉` windows — fuel `⌈total / c⌉`
suffices and, on a non-empty entry list, fuel `⌈total / c⌉ - 1` does
not (`batchReview`'s total is its filtered source list) — while with
`concurrency = 0` the loop index never advances, so on a non-empty list
no amount of fuel terminates either loop. -/
theorem batch_loops_termination (deps : TranslatorDeps)
    (hasVectorDB hasGlossary : Bool)
    (entries sourceEntries targetEntries : List I18nEntry)
    (targetLanguage : String) (options options₀ : ITranslationOptions)
    (hc : 1 ≤ options.concurrency.getD 5)
    (hc0 : options₀.concurrency = some 0) :
    (∃ m, batchTranslateF deps hasVectorDB hasGlossary entries targetLanguage options
      (numWindows (options.concurrency.getD 5) entries.length) = some m) ∧
    (entries ≠ [] →
      batchTranslateF deps hasVectorDB hasGlossary entries targetLanguage options
        (numWindows (options.concurrency.getD 5) entries.length - 1) = none) ∧
    (∃ m, batchReviewF deps hasVectorDB hasGlossary sourceEntries targetEntries
      targetLanguage options
      (numWindows (options.concurrency.getD 5)
        (sourceEntries.filter (fun e =>
          (mapGet (targetMapOf targetEntries) e.key).isSome)).length) = some m) ∧
    ((sourceEntries.filter (fun e =>
        (mapGet (targetMapOf targetEntries) e.key).isSome)) ≠ [] →
      batchReviewF deps hasVectorDB hasGlossary sourceEntries targetEntries
        targetLanguage options
        (numWindows (options.concurrency.getD 5)
          (sourceEntries.filter (fun e =>
            (mapGet (targetMapOf targetEntries) e.key).isSome)).length - 1) = none) ∧
    (entries ≠ [] → ∀ fuel,
      batchTranslateF deps hasVectorDB hasGlossary entries targetLanguage options₀
        fuel = none) ∧
    ((sourceEntries.filter (fun e =>
        (mapGet (targetMapOf targetEntries) e.key).isSome)) ≠ [] → ∀ fuel,
      batchReviewF deps hasVectorDB hasGlossary sourceEntries targetEntries
        targetLanguage options₀ fuel = none) := by
  have hcz : options₀.concurrency.getD 5 = 0 := by rw [hc0]; rfl
  refine ⟨?_, ?_, ?_, ?_, ?_, ?_⟩
  · rw [batchTranslateF]
    exact ⟨_, windowLoop_some _ _ _ hc _ 0 [] (by
      rw [Nat.sub_zero]
      exact numWindows_ge _ _ hc)⟩
  · intro hne
    rw [batchTranslateF]
    exact windowLoop_none _ _ _ _ 0 [] (by
      rw [Nat.sub_zero]
      exact numWindows_lt _ _ hc (List.length_pos.2 hne))
  · rw [batchReviewF]
    exact ⟨_, windowLoop_some _ _ _ hc _ 0 [] (by
      rw [Nat.sub_zero]
      exact numWindows_ge _ _ hc)⟩
  · intro hne
    rw [batchReviewF]
    exact windowLoop_none _ _ _ _ 0 [] (by
      rw [Nat.sub_zero]
      exact numWindows_lt _ _ hc (List.length_pos.2 hne))
  · intro hne fuel
    rw [batchTranslateF, hcz]
    exact windowLoop_zero _ _ fuel 0 [] (List.length_pos.2 hne)
  · intro hne fuel
    rw [batchReviewF, hcz]
    exact windowLoop_zero _ _ fuel 0 [] (List.length_pos.2 hne)

/-- C10 witness: concrete non-empty entry lists; default options on one
side, `concurrency := 0` on the other. -/
theorem batch_loops_termination_witness :
    (1 ≤ ({} : ITranslationOptions).concurrency.getD 5) ∧
    (({ concurrency := some 0 } : ITranslationOptions).concurrency = some 0) ∧
    ((∃ m, batchTranslateF depsFix true true entriesFix "ja" {}
      (numWindows (({} : ITranslationOptions).concurrency.getD 5)
        entriesFix.length) = some m) ∧
    (entriesFix ≠ [] →
      batchTranslateF depsFix true true entriesFix "ja" {}
        (numWindows (({} : ITranslationOptions).concurrency.getD 5)
          entriesFix.length - 1) = none) ∧
    (∃ m, batchReviewF depsFix true true entriesFix
      [{ key := "k1", value := "x" }] "ja" {}
      (numWindows (({} : ITranslationOptions).concurrency.getD 5)
        (entriesFix.filter (fun e =>
          (mapGet (targetMapOf [{ key := "k1", value := "x" }]) e.key).isSome)).length) =
      some m) ∧
    ((entriesFix.filter (fun e =>
        (mapGet (targetMapOf [{ key := "k1", value := "x" }]) e.key).isSome)) ≠ [] →
      batchReviewF depsFix true true entriesFix
        [{ key := "k1", value := "x" }] "ja" {}
        (numWindows (({} : ITranslationOptions).concurrency.getD 5)
          (entriesFix.filter (fun e =>
            (mapGet (targetMapOf [{ key := "k1", value := "x" }]) e.key).isSome)).length
          - 1) = none) ∧
    (entriesFix ≠ [] → ∀ fuel,
      batchTranslateF depsFix true true entriesFix "ja"
        { concurrency := some 0 } fuel = none) ∧
    ((entriesFix.filter (fun e =>
        (mapGet (targetMapOf [{ key := "k1", value := "x" }]) e.key).isSome)) ≠ [] →
      ∀ fuel,
      batchReviewF depsFix true true entriesFix
        [{ key := "k1", value := "x" }] "ja" { concurrency := some 0 } fuel = none)) :=
  ⟨by decide, rfl,
   batch_loops_termination depsFix true true entriesFix entriesFix
     [{ key := "k1", value := "x" }] "ja" {} { concurrency := some 0 }
     (by decide) rfl⟩

/-! ## A specification for `String.splitOn "."` (C3)

`String.splitOn` has no list-level characterisation in the library; we
prove one for the single-character separator `"."` using the
valid-position lemmas, in the style of `String.split_of_valid`. -/

theorem dot_utf8Size : ('.').utf8Size = 1 := rfl

theorem sep_get : ("." : String).get 0 = '.' := rfl

theorem sep_next : ("." : String).next 0 = ⟨1⟩ := rfl

theorem sep_atEnd : ("." : String).atEnd ⟨1⟩ = true := rfl

open String in
theorem splitOnAux_dot_of_valid :
    ∀ (l m r : List Char) (acc : List String),
      splitOnAux ⟨l ++ m ++ r⟩ "." ⟨utf8Len l⟩ ⟨utf8Len l + utf8Len m⟩ 0 acc =
        acc.reverse ++ (List.splitOnP.go (fun c => c == '.') r m.reverse).map mk
  | l, m, [], acc => by
    unfold splitOnAux
    have hend : atEnd ⟨l ++ m ++ []⟩ ⟨utf8Len l + utf8Len m⟩ = true := by
      rw [show l ++ m ++ [] = (l ++ m) ++ [] from by simp, show
        (⟨utf8Len l + utf8Len m⟩ : Pos) = ⟨utf8Len (l ++ m)⟩ from by simp]
      simp [atEnd_of_valid]
    rw [if_pos hend, extract_of_valid l m []]
    simp [List.splitOnP.go]
  | l, m, c :: r', acc => by
    unfold splitOnAux
    have hend : atEnd ⟨l ++ m ++ (c :: r')⟩ ⟨utf8Len l + utf8Len m⟩ = false := by
      rw [show (⟨utf8Len l + utf8Len m⟩ : Pos) = ⟨utf8Len (l ++ m)⟩ from by simp,
        Bool.eq_false_iff]
      intro hT
      exact List.noConfusion ((atEnd_of_valid (l ++ m) (c :: r')).1 hT)
    rw [if_neg (by rw [hend]; exact Bool.false_ne_true)]
    have hget : get ⟨l ++ m ++ (c :: r')⟩ ⟨utf8Len l + utf8Len m⟩ = c := by
      rw [show l ++ m ++ (c :: r') = (l ++ m) ++ (c :: r') from by simp, show
        (⟨utf8Len l + utf8Len m⟩ : Pos) = ⟨utf8Len (l ++ m)⟩ from by simp]
      rw [get_of_valid]
      rfl
    have hnext : next ⟨l ++ m ++ (c :: r')⟩ ⟨utf8Len l + utf8Len m⟩ =
        ⟨utf8Len l + utf8Len m + c.utf8Size⟩ := by
      rw [show l ++ m ++ (c :: r') = (l ++ m) ++ (c :: r') from by simp, show
        (⟨utf8Len l + utf8Len m⟩ : Pos) = ⟨utf8Len (l ++ m)⟩ from by simp]
      rw [next_of_valid]
      simp
    rw [hget, sep_get, sep_next]
    by_cases hc : c = '.'
    · rw [if_pos (by simpa using hc)]
      rw [if_pos sep_atEnd, hnext, hc, dot_utf8Size]
      have hsub : (⟨utf8Len l + utf8Len m + 1⟩ - ⟨1⟩ : Pos) =
          ⟨utf8Len l + utf8Len m⟩ := by
        show (⟨utf8Len l + utf8Len m + 1 - 1⟩ : Pos) = ⟨utf8Len l + utf8Len m⟩
        simp
      rw [hsub, extract_of_valid l m ('.' :: r')]
      have hrec := splitOnAux_dot_of_valid (l ++ m ++ ['.']) [] r' (⟨m⟩ :: acc)
      rw [show (l ++ m ++ ['.']) ++ [] ++ r' = l ++ m ++ ('.' :: r') from by simp] at hrec
      rw [show utf8Len (l ++ m ++ ['.']) + utf8Len [] = utf8Len l + utf8Len m + 1 from by
          simp only [utf8Len_append, utf8Len_cons, utf8Len_nil, dot_utf8Size]
          try omega,
        show utf8Len (l ++ m ++ ['.']) = utf8Len l + utf8Len m + 1 from by
          simp only [utf8Len_append, utf8Len_cons, utf8Len_nil, dot_utf8Size]
          try omega] at hrec
      rw [hrec]
      rw [List.splitOnP.go]
      simp
    · rw [if_neg (by simpa using hc)]
      have hsub0 : (⟨utf8Len l + utf8Len m⟩ - (0 : Pos) : Pos) =
          ⟨utf8Len l + utf8Len m⟩ := rfl
      rw [hsub0, hnext]
      have hrec := splitOnAux_dot_of_valid l (m ++ [c]) r' acc
      rw [show l ++ (m ++ [c]) ++ r' = l ++ m ++ (c :: r') from by simp,
        show utf8Len l + utf8Len (m ++ [c]) = utf8Len l + utf8Len m + c.utf8Size from by
          simp only [utf8Len_append, utf8Len_cons, utf8Len_nil]
          try omega] at hrec
      rw [hrec]
      rw [List.splitOnP.go]
      rw [if_neg (by simpa using hc)]
      simp
  termination_by _ _ r _ => r.length

open String in
/-- `String.splitOn "."` is `List.splitOnP (· == '.')` on the character
list. -/
theorem splitOn_dot_eq (s : String) :
    s.splitOn "." = (s.data.splitOnP (fun c => c == '.')).map mk := by
  have h := splitOnAux_dot_of_valid [] [] s.data []
  simp only [List.nil_append, List.reverse_nil, utf8Len_nil, Nat.add_zero] at h
  rw [String.splitOn, if_neg (by decide)]
  exact h

theorem modifyHead_append_of_ne_nil (f : α → α) (l₁ l₂ : List α)
    (h : l₁ ≠ []) : (l₁ ++ l₂).modifyHead f = l₁.modifyHead f ++ l₂ := by
  cases l₁ with
  | nil => exact absurd rfl h
  | cons a t => rfl

/-- Splitting `A ++ sep :: B` where `B` is separator-free: the segments
of `A`, then `B` as the final segment. -/
theorem splitOnP_append_last (p : α → Bool) (sep : α) (hsep : p sep = true)
    (A B : List α) (hB : ∀ b ∈ B, p b = false) :
    (A ++ sep :: B).splitOnP p = A.splitOnP p ++ [B] := by
  induction A with
  | nil =>
    rw [List.nil_append, List.splitOnP_cons, if_pos hsep, List.splitOnP_nil]
    rw [List.splitOnP_eq_single _ _ (fun x hx => by rw [hB x hx]; exact Bool.false_ne_true)]
    rfl
  | cons a A ih =>
    rw [List.cons_append, List.splitOnP_cons, List.splitOnP_cons, ih]
    by_cases hpa : p a = true
    · rw [if_pos hpa, if_pos hpa, List.cons_append]
    · rw [if_neg hpa, if_neg hpa,
        modifyHead_append_of_ne_nil _ _ _ (List.splitOnP_ne_nil p A)]

/-- A dot-free string is a single `splitOn "."` segment. -/
theorem splitOn_dot_single (k : String) (hk : ∀ ch ∈ k.data, ch ≠ '.') :
    k.splitOn "." = [k] := by
  rw [splitOn_dot_eq]
  rw [List.splitOnP_eq_single _ _ (fun x hx => by simpa using hk x hx)]
  rfl

theorem data_append_dot (a b : String) :
    (a ++ "." ++ b).data = a.data ++ '.' :: b.data := by
  simp

/-- Appending `"." ++ b` for dot-free `b` appends one `splitOn "."`
segment. -/
theorem splitOn_dot_append (a b : String) (hb : ∀ ch ∈ b.data, ch ≠ '.') :
    (a ++ "." ++ b).splitOn "." = a.splitOn "." ++ [b] := by
  rw [splitOn_dot_eq, splitOn_dot_eq, data_append_dot]
  rw [splitOnP_append_last _ '.' (by simp) a.data b.data
    (fun x hx => by simpa using hb x hx)]
  rw [List.map_append]
  rfl

theorem append_ne_empty_left (a b : String) (ha : a ≠ "") : a ++ b ≠ "" := by
  intro h
  apply ha
  have hd := congrArg String.data h
  simp only [String.data_append] at hd
  rcases List.append_eq_nil.1 hd with ⟨h1, _⟩
  exact congrArg String.mk h1

theorem fullKey_ne_empty (pref k : String) (hk : k ≠ "") : fullKey pref k ≠ "" := by
  rw [fullKey]
  by_cases hp : pref = ""
  · rw [if_pos hp]; exact hk
  · rw [if_neg hp]
    exact append_ne_empty_left _ _ (append_ne_empty_left _ _ hp)

theorem splitOn_foldl_fullKey (path : List String) :
    ∀ (pref : String), pref ≠ "" → (∀ seg ∈ path, goodKey seg) →
      (path.foldl fullKey pref).splitOn "." = pref.splitOn "." ++ path := by
  induction path with
  | nil => intro pref _ _; simp
  | cons k path ih =>
    intro pref hpref hsegs
    have hk : goodKey k := hsegs k (List.mem_cons_self k path)
    rw [List.foldl_cons]
    rw [ih (fullKey pref k) (fullKey_ne_empty pref k hk.1)
      (fun seg hs => hsegs seg (List.mem_cons_of_mem k hs))]
    rw [show fullKey pref k = pref ++ "." ++ k from by rw [fullKey, if_neg hpref]]
    rw [splitOn_dot_append pref k hk.2]
    simp

/-- The key a leaf at (non-empty, good-segment) relative `path` gets from
the empty prefix splits back into `path`. -/
theorem splitOn_foldl_fullKey_root (path : List String) (hne : path ≠ [])
    (hsegs : ∀ seg ∈ path, goodKey seg) :
    (path.foldl fullKey "").splitOn "." = path := by
  cases path with
  | nil => exact absurd rfl hne
  | cons k path =>
    have hk : goodKey k := hsegs k (List.mem_cons_self k path)
    rw [List.foldl_cons]
    rw [show fullKey "" k = k from by rw [fullKey, if_pos rfl]]
    cases path with
    | nil => rw [List.foldl_nil, splitOn_dot_single k hk.2]
    | cons k₂ path₂ =>
      rw [splitOn_foldl_fullKey (k₂ :: path₂) k hk.1
        (fun seg hs => hsegs seg (List.mem_cons_of_mem k hs))]
      rw [splitOn_dot_single k hk.2]
      rfl

/-! ## Flatten lemmas (C3) -/

/-- The accumulator of `flattenI18nData` only collects: the result is the
accumulator followed by the accumulator-free run. -/
theorem flattenI18nData_acc :
    ∀ (d : I18nData) (pref : String) (acc : List I18nEntry),
      flattenI18nData d pref acc = acc ++ flattenI18nData d pref []
  | [], pref, acc => by simp [flattenI18nData]
  | (k, .str v) :: rest, pref, acc => by
    rw [flattenI18nData, flattenI18nData]
    have h1 := flattenI18nData_acc rest pref
      (acc ++ [{ key := fullKey pref k, value := v }])
    have h2 := flattenI18nData_acc rest pref
      ([] ++ [{ key := fullKey pref k, value := v }])
    rw [h1, h2]
    simp
  | (k, .obj fields) :: rest, pref, acc => by
    rw [flattenI18nData, flattenI18nData]
    have h1 := flattenI18nData_acc fields (fullKey pref k) acc
    have h2 := flattenI18nData_acc rest pref
      (acc ++ flattenI18nData fields (fullKey pref k) [])
    have h3 := flattenI18nData_acc rest pref (flattenI18nData fields (fullKey pref k) [])
    rw [h1, h2, h3]
    simp
  termination_by d _ _ => sizeOf d
  decreasing_by all_goals (simp_wf; try omega)

/-- Paths produced under a prefix are the prefix-free paths shifted. -/
theorem flatPaths_shift :
    ∀ (d : I18nData) (pref : List String),
      flatPaths d pref = (flatPaths d []).map (fun pv => (pref ++ pv.1, pv.2))
  | [], pref => by simp [flatPaths]
  | (k, .str v) :: rest, pref => by
    rw [flatPaths, flatPaths]
    have h1 := flatPaths_shift rest pref
    rw [h1]
    simp
  | (k, .obj fields) :: rest, pref => by
    rw [flatPaths, flatPaths]
    have h1 := flatPaths_shift fields (pref ++ [k])
    have h2 := flatPaths_shift rest pref
    have h3 := flatPaths_shift fields ([] ++ [k])
    rw [h1, h2, h3]
    simp [Function.comp_def]
  termination_by d _ => sizeOf d
  decreasing_by all_goals (simp_wf; try omega)

/-- `flattenI18nData` produces exactly the leaves of `flatPaths`, with
keys given by folding `fullKey` along the path. -/
theorem flattenI18nData_eq_flatPaths :
    ∀ (d : I18nData) (pref : String),
      flattenI18nData d pref [] =
        (flatPaths d []).map (fun pv =>
          { key := pv.1.foldl fullKey pref, value := pv.2 })
  | [], pref => by simp [flattenI18nData, flatPaths]
  | (k, .str v) :: rest, pref => by
    rw [flattenI18nData, flatPaths]
    have h1 := flattenI18nData_acc rest pref
      ([] ++ [{ key := fullKey pref k, value := v }])
    have h2 := flattenI18nData_eq_flatPaths rest pref
    rw [h1, h2]
    simp
  | (k, .obj fields) :: rest, pref => by
    rw [flattenI18nData, flatPaths]
    have h1 := flattenI18nData_acc rest pref (flattenI18nData fields (fullKey pref k) [])
    have h2 := flattenI18nData_eq_flatPaths rest pref
    have h3 := flattenI18nData_eq_flatPaths fields (fullKey pref k)
    have h4 := flatPaths_shift fields ([] ++ [k])
    rw [h1, h2, h3, h4]
    simp [Function.comp_def]
  termination_by d _ => sizeOf d
  decreasing_by all_goals (simp_wf; try omega)

/-- In a well-formed catalog every leaf path is non-empty with good
segments. -/
theorem flatPaths_props :
    ∀ (d : I18nData), wfFields d →
      ∀ pv ∈ flatPaths d [], pv.1 ≠ [] ∧ ∀ seg ∈ pv.1, goodKey seg
  | [], _, pv, hpv => by simp [flatPaths] at hpv
  | (k, .str v) :: rest, hwf, pv, hpv => by
    rw [wfFields] at hwf
    rw [flatPaths] at hpv
    rcases List.mem_cons.1 hpv with rfl | hpv'
    · refine ⟨by simp, ?_⟩
      intro seg hs
      simp only [List.nil_append, List.mem_singleton] at hs
      exact hs ▸ hwf.1
    · exact flatPaths_props rest hwf.2.2 pv hpv'
  | (k, .obj fields) :: rest, hwf, pv, hpv => by
    rw [wfFields] at hwf
    rw [flatPaths] at hpv
    rcases List.mem_append.1 hpv with hin | hpv'
    · have h4 := flatPaths_shift fields ([] ++ [k])
      rw [h4] at hin
      rcases List.mem_map.1 hin with ⟨qv, hqv, rfl⟩
      have hval := hwf.2.1
      rw [wfVal] at hval
      have hsub := flatPaths_props fields hval.2.2 qv hqv
      refine ⟨by simp, ?_⟩
      intro seg hs
      simp only [List.nil_append] at hs
      rcases List.mem_append.1 hs with hk | hseg
      · rw [List.mem_singleton] at hk
        exact hk ▸ hwf.1
      · exact hsub.2 seg hseg
    · exact flatPaths_props rest hwf.2.2 pv hpv'
  termination_by d => sizeOf d
  decreasing_by all_goals (simp_wf; try omega)

/-- A non-empty well-formed catalog has at least one leaf. -/
theorem flatPaths_ne_nil :
    ∀ (d : I18nData), wfFields d → d ≠ [] → flatPaths d [] ≠ []
  | [], _, hne => absurd rfl hne
  | (k, .str v) :: rest, _, _ => by
    rw [flatPaths]
    exact List.cons_ne_nil _ _
  | (k, .obj fields) :: rest, hwf, _ => by
    rw [wfFields] at hwf
    have hval := hwf.2.1
    rw [wfVal] at hval
    rw [flatPaths]
    intro happ
    rcases List.append_eq_nil.1 happ with ⟨h1, _⟩
    have h4 := flatPaths_shift fields ([] ++ [k])
    rw [h4] at h1
    exact flatPaths_ne_nil fields hval.2.2 hval.1 (List.map_eq_nil_iff.1 h1)
  termination_by d => sizeOf d
  decreasing_by all_goals (simp_wf; try omega)

/-! ## Build lemmas (C3) -/

theorem getField_append_self (done : I18nData) (k : String) (x : JValue)
    (h : mapGet done k = none) : getField (done ++ [(k, x)]) k = some x := by
  rw [getField, mapGet_append_right _ _ _ h, mapGet_cons]
  simp

theorem setField_append_self (done : I18nData) (k : String) (x y : JValue)
    (h : mapGet done k = none) :
    setField (done ++ [(k, x)]) k y = done ++ [(k, y)] := by
  rw [setField, mapSet]
  have hany : (done ++ [(k, x)]).any (fun p => p.1 == k) = true := by
    rw [List.any_append]
    simp
  rw [if_pos hany, List.map_append]
  rw [mapGet_eq_none_iff] at h
  congr 1
  · have hfix : ∀ p ∈ done, (if p.1 == k then (k, y) else p) = p := by
      intro p hp
      rw [if_neg (by simpa using h p hp)]
    calc done.map _ = done.map id := List.map_congr_left hfix
      _ = done := List.map_id _
  · simp

theorem foldlM_congr_mem :
    ∀ (l : List α) (f f' : β → α → Option β) (b : β),
      (∀ x ∈ l, ∀ acc, f acc x = f' acc x) → l.foldlM f b = l.foldlM f' b := by
  intro l
  induction l with
  | nil => intro f f' b _; rfl
  | cons a l ih =>
    intro f f' b h
    rw [List.foldlM_cons, List.foldlM_cons, h a (List.mem_cons_self a l) b]
    cases hfa : f' b a with
    | none => rfl
    | some b' =>
      simp only [Option.bind_eq_bind, Option.some_bind]
      exact ih f f' b' (fun x hx acc => h x (List.mem_cons_of_mem a hx) acc)

theorem insertAll_prefixed :
    ∀ (es : List (List String × String)) (done : I18nData) (k : String)
      (sub : I18nData),
      mapGet done k = none →
      (∀ pv ∈ es, pv.1 ≠ []) →
      es.foldlM (fun f pv => insertParts f (k :: pv.1) pv.2)
        (done ++ [(k, JValue.obj sub)]) =
        (es.foldlM (fun f pv => insertParts f pv.1 pv.2) sub).map
          (fun sub' => done ++ [(k, JValue.obj sub')]) := by
  intro es
  induction es with
  | nil => intro done k sub _ _; simp
  | cons pv es ih =>
    intro done k sub h hne
    rcases pv with ⟨p, v⟩
    obtain ⟨q, p', rfl⟩ : ∃ q p', p = q :: p' := by
      cases p with
      | nil => exact absurd rfl (hne ([], v) (List.mem_cons_self _ _))
      | cons q p' => exact ⟨q, p', rfl⟩
    rw [List.foldlM_cons, List.foldlM_cons]
    have hstep : insertParts (done ++ [(k, JValue.obj sub)]) (k :: q :: p') v =
        (insertParts sub (q :: p') v).map
          (fun s' => setField (done ++ [(k, JValue.obj sub)]) k (.obj s')) := by
      rw [insertParts, getField_append_self done k _ h]
    rw [hstep]
    cases hins : insertParts sub (q :: p') v with
    | none => simp
    | some s' =>
      simp only [Option.map_some', Option.bind_eq_bind, Option.some_bind]
      rw [setField_append_self done k _ _ h]
      exact ih done k s' h (fun x hx => hne x (List.mem_cons_of_mem _ hx))

theorem insertAll_prefixed_full
    (es : List (List String × String)) (done : I18nData) (k : String)
    (h : mapGet done k = none) (hne : ∀ pv ∈ es, pv.1 ≠ []) (hes : es ≠ []) :
    es.foldlM (fun f pv => insertParts f (k :: pv.1) pv.2) done =
      (es.foldlM (fun f pv => insertParts f pv.1 pv.2) ([] : I18nData)).map
        (fun sub => done ++ [(k, JValue.obj sub)]) := by
  cases es with
  | nil => exact absurd rfl hes
  | cons pv es =>
    rcases pv with ⟨p, v⟩
    obtain ⟨q, p', rfl⟩ : ∃ q p', p = q :: p' := by
      cases p with
      | nil => exact absurd rfl (hne ([], v) (List.mem_cons_self _ _))
      | cons q p' => exact ⟨q, p', rfl⟩
    rw [List.foldlM_cons, List.foldlM_cons]
    have hstep : insertParts done (k :: q :: p') v =
        (insertParts ([] : I18nData) (q :: p') v).map
          (fun s => setField done k (.obj s)) := by
      rw [insertParts]
      rw [show getField done k = none from h]
    rw [hstep]
    cases hins : insertParts ([] : I18nData) (q :: p') v with
    | none => simp
    | some s₁ =>
      simp only [Option.map_some', Option.bind_eq_bind, Option.some_bind]
      rw [show setField done k (JValue.obj s₁) = done ++ [(k, JValue.obj s₁)] from
        by rw [setField, mapSet_of_not_mem _ _ _ h]]
      exact insertAll_prefixed es done k s₁ h
        (fun x hx => hne x (List.mem_cons_of_mem _ hx))

theorem mapGet_eq_none_of_nodup_append (done rest : I18nData) (k : String)
    (hnd : ((done ++ rest).map Prod.fst).Nodup) (hk : k ∈ rest.map Prod.fst) :
    mapGet done k = none := by
  rw [mapGet_eq_none_iff]
  intro p hp hpk
  rw [List.map_append] at hnd
  rcases List.nodup_append.1 hnd with ⟨_, _, hdisj⟩
  exact hdisj (hpk ▸ List.mem_map.2 ⟨p, hp, rfl⟩) hk

/-- Inserting the flattened leaves of a well-formed field list into an
accumulator (whose keys are disjoint from them) grafts the field list
onto the end. -/
theorem insertAll_flatPaths :
    ∀ (rest done : I18nData), wfFields rest →
      ((done ++ rest).map Prod.fst).Nodup →
      (flatPaths rest []).foldlM
        (fun f (pv : List String × String) => insertParts f pv.1 pv.2) done =
        some (done ++ rest)
  | [], done, _, _ => by simp [flatPaths]
  | (k, .str v) :: rest', done, hwf, hnd => by
    rw [wfFields] at hwf
    rw [flatPaths, List.foldlM_cons]
    have hkey : mapGet done k = none :=
      mapGet_eq_none_of_nodup_append done _ k hnd (by simp)
    have hstep : insertParts done ([] ++ [k]) v = some (done ++ [(k, JValue.str v)]) := by
      rw [List.nil_append, insertParts, setField, mapSet_of_not_mem _ _ _ hkey]
    rw [hstep]
    simp only [Option.bind_eq_bind, Option.some_bind]
    have hrec := insertAll_flatPaths rest' (done ++ [(k, .str v)]) hwf.2.2 (by
      rw [List.append_assoc]
      simpa using hnd)
    rw [hrec]
    simp
  | (k, .obj g) :: rest', done, hwf, hnd => by
    rw [wfFields] at hwf
    have hval := hwf.2.1
    rw [wfVal] at hval
    rw [flatPaths, List.foldlM_append]
    have h4 := flatPaths_shift g ([] ++ [k])
    rw [h4, List.foldlM_map]
    have hkey : mapGet done k = none :=
      mapGet_eq_none_of_nodup_append done _ k hnd (by simp)
    have hprops := flatPaths_props g hval.2.2
    have hcongr := foldlM_congr_mem (flatPaths g [])
      (fun f (pv : List String × String) => insertParts f (([] ++ [k]) ++ pv.1) pv.2)
      (fun f (pv : List String × String) => insertParts f (k :: pv.1) pv.2) done
      (by intro x _ acc; rfl)
    rw [hcongr]
    rw [insertAll_prefixed_full (flatPaths g []) done k hkey
      (fun pv hpv => (hprops pv hpv).1)
      (flatPaths_ne_nil g hval.2.2 hval.1)]
    rw [insertAll_flatPaths g [] hval.2.2 (by simpa using hval.2.1)]
    simp only [List.nil_append, Option.map_some', Option.bind_eq_bind, Option.some_bind]
    have hrec := insertAll_flatPaths rest' (done ++ [(k, .obj g)]) hwf.2.2 (by
      rw [List.append_assoc]
      simpa using hnd)
    rw [hrec]
    simp
  termination_by rest _ => sizeOf rest
  decreasing_by all_goals (simp_wf; try omega)

/-- C3 amended: the flatten/build round trip holds for every
*well-formed* catalog — distinct non-empty dot-free keys at every level
and no empty nested object:
`buildI18nData (flattenI18nData C "" []) = some C`. -/
theorem flatten_build_roundtrip (d : I18nData) (hwf : wfData d) :
    buildI18nData (flattenI18nData d "" []) = some d := by
  obtain ⟨hnd, hwff⟩ := hwf
  rw [flattenI18nData_eq_flatPaths d "", buildI18nData, List.foldlM_map]
  have hprops := flatPaths_props d hwff
  have hcongr := foldlM_congr_mem (flatPaths d [])
    (fun data (pv : List String × String) =>
      insertParts data
        (({ key := pv.1.foldl fullKey "", value := pv.2 } : I18nEntry).key.splitOn ".")
        ({ key := pv.1.foldl fullKey "", value := pv.2 } : I18nEntry).value)
    (fun data (pv : List String × String) => insertParts data pv.1 pv.2)
    ([] : I18nData)
    (by
      intro pv hpv acc
      have hp := hprops pv hpv
      show insertParts acc ((pv.1.foldl fullKey "").splitOn ".") pv.2 =
        insertParts acc pv.1 pv.2
      rw [splitOn_foldl_fullKey_root pv.1 hp.1 hp.2])
  rw [hcongr]
  rw [insertAll_flatPaths d [] hwff (by simpa using hnd)]
  simp

/-- C3, counterexample: for the catalog `{"a.b": "v"}` — all leaves are
strings, but the key contains a dot — `buildI18nData` re-nests the key
that `flattenI18nData` emitted verbatim, so the round trip returns
`{"a": {"b": "v"}}`, not the original catalog. -/
theorem flatten_build_roundtrip_cex :
    buildI18nData (flattenI18nData [("a.b", JValue.str "v")] "" []) =
      some [("a", JValue.obj [("b", JValue.str "v")])] ∧
    buildI18nData (flattenI18nData [("a.b", JValue.str "v")] "" []) ≠
      some [("a.b", JValue.str "v")] := by
  have h1 : flattenI18nData [("a.b", JValue.str "v")] "" [] =
      [{ key := "a.b", value := "v" }] := by
    rw [flattenI18nData, flattenI18nData]
    rfl
  have h2 : ("a.b" : String).splitOn "." = ["a", "b"] := by
    rw [splitOn_dot_eq]
    rfl
  have h3 : buildI18nData [{ key := "a.b", value := "v" }] =
      some [("a", JValue.obj [("b", JValue.str "v")])] := by
    rw [buildI18nData, List.foldlM_cons]
    show (insertParts [] (("a.b" : String).splitOn ".") "v").bind _ =
      some [("a", JValue.obj [("b", JValue.str "v")])]
    rw [h2]
    rfl
  rw [h1, h3]
  refine ⟨rfl, ?_⟩
  intro h
  have h4 := Option.some.inj h
  have h5 : ("a" : String) = "a.b" := congrArg Prod.fst (List.head_eq_of_cons_eq h4)
  exact absurd (congrArg String.data h5) (by decide)

/-- C3 witness: a concrete well-formed nested catalog round-trips. -/
theorem flatten_build_roundtrip_witness :
    wfData [("a", JValue.obj [("b", JValue.str "Hello")]), ("c", JValue.str "x")] ∧
    buildI18nData (flattenI18nData
        [("a", JValue.obj [("b", JValue.str "Hello")]), ("c", JValue.str "x")] "" []) =
      some [("a", JValue.obj [("b", JValue.str "Hello")]), ("c", JValue.str "x")] := by
  have hwf : wfData
      [("a", JValue.obj [("b", JValue.str "Hello")]), ("c", JValue.str "x")] := by
    refine ⟨by decide, ?_⟩
    rw [wfFields]
    refine ⟨by decide, ?_, ?_⟩
    · rw [wfVal]
      refine ⟨List.cons_ne_nil _ _, by decide, ?_⟩
      rw [wfFields]
      refine ⟨by decide, ?_, ?_⟩
      · rw [wfVal]
        trivial
      · rw [wfFields]
        trivial
    · rw [wfFields]
      refine ⟨by decide, ?_, ?_⟩
      · rw [wfVal]
        trivial
      · rw [wfFields]
        trivial
  exact ⟨hwf, flatten_build_roundtrip _ hwf⟩

end I18nApp
